import Mathlib

/-!
Verification of the yPost Usenet posting tool against its specification.

The Go sources are shallowly embedded: byte strings become `List Nat`
(each element a byte value below 256), character strings become
`List Char`, machine integer arithmetic is modelled with `Nat`/`Int`
and explicit `% 256` where byte wrap-around matters, and fallible
functions return `Except` or `Option`.  Loops whose termination is not
structural (the splitter read loop) are modelled with an explicit fuel
parameter, `none` meaning that the loop has not finished within the
given fuel.
-/

set_option maxRecDepth 8000

deriving instance DecidableEq for Except

namespace YPost

/-! ## Shared byte and string utilities -/

/-- Byte subtraction with wrap-around, as performed on a Go `byte`.
Valid for `b ≤ 256`. -/
def byteSub (a b : Nat) : Nat := (a + 256 - b) % 256

/-- Byte values of a Lean string literal (ASCII in all uses here). -/
def strBytes (s : String) : List Nat := s.data.map Char.toNat

/-- Character list of a Lean string literal. -/
def strChars (s : String) : List Char := s.data

/-- Decimal digit character for a value below 10, as produced by Go
`fmt` `%d` formatting. -/
def digitChar (d : Nat) : Char := Char.ofNat (48 + d)

/-- Fueled helper for decimal formatting: digits of `n`, most
significant first.  Fuel `n + 1` always suffices. -/
def natDigitsAux : Nat → Nat → List Char
  | 0, _ => []
  | f + 1, n => if n < 10 then [digitChar n] else natDigitsAux f (n / 10) ++ [digitChar (n % 10)]

/-- Decimal representation of `n`, as produced by Go `%d` for a
non-negative integer. -/
def natDigits (n : Nat) : List Char := natDigitsAux (n + 1) n

/-- Byte values of the decimal representation of `n`. -/
def digitsBytes (n : Nat) : List Nat := (natDigits n).map Char.toNat

/-- Numeric value of a list of decimal digit characters. -/
def digitsVal (l : List Char) : Nat := l.foldl (fun a c => 10 * a + (c.toNat - 48)) 0

/-- Fueled chunking: split a list into consecutive pieces of `n`
elements, the final piece possibly shorter.  Fuel at least the list
length suffices whenever `0 < n`. -/
def chunkAux (n : Nat) : Nat → List Nat → List (List Nat)
  | 0, _ => []
  | _ + 1, [] => []
  | f + 1, x :: xs => (x :: xs).take n :: chunkAux n f ((x :: xs).drop n)

/-- Split a list into consecutive pieces of `n` elements (final piece
possibly shorter); empty result when `n = 0`. -/
def chunkList (n : Nat) (l : List Nat) : List (List Nat) :=
  chunkAux n l.length l

/-- Well-known IEEE CRC32 polynomial in reflected form. -/
def crcPoly : Nat := 0xEDB88320

/-- One bit step of the reflected CRC32 computation. -/
def crcBitStep (c : Nat) : Nat :=
  if c % 2 = 1 then (c / 2) ^^^ crcPoly else c / 2

/-- One byte step: xor the byte in, then process eight bits. -/
def crcByteStep (c : Nat) (b : Nat) : Nat :=
  crcBitStep (crcBitStep (crcBitStep (crcBitStep (crcBitStep (crcBitStep (crcBitStep (crcBitStep (c ^^^ b % 256))))))))

/-- Model of Go `crc32.ChecksumIEEE`: initial value `0xFFFFFFFF`,
reflected polynomial `0xEDB88320`, final complement. -/
def crc32 (data : List Nat) : Nat :=
  (data.foldl crcByteStep 0xFFFFFFFF) ^^^ 0xFFFFFFFF

/-! ## yEnc codec, from internal/yenc/encoder.go -/

namespace Yenc

/-- Constant `lineLength` of encoder.go. -/
def lineLength : Nat := 128

/-- One byte of yEnc encoding: add 42 modulo 256, escaping the
critical values NUL, TAB, LF, CR and the escape character itself by
emitting 0x3D followed by the value plus 64 (modulo 256).  This is the
loop body of `Encoder.encodeData`. -/
def encodeByte (b : Nat) : List Nat :=
  let c := (b + 42) % 256
  if c = 0 ∨ c = 9 ∨ c = 10 ∨ c = 13 ∨ c = 61 then [61, (c + 64) % 256] else [c]

/-- Model of `Encoder.encodeData`. -/
def encodeData (data : List Nat) : List Nat := data.flatMap encodeByte

/-- Model of `Encoder.splitIntoLines`: cut the encoded bytes into
lines of `lineLength` bytes, the final line possibly shorter. -/
def splitIntoLines (data : List Nat) : List (List Nat) := chunkList lineLength data

/-- Model of `Encoder.buildHeader`.  With more than one part the
header carries part and total fields, otherwise they are omitted. -/
def buildHeader (name : List Nat) (partNum totalParts size : Nat) : List Nat :=
  if 1 < totalParts then
    strBytes "=ybegin part=" ++ digitsBytes partNum ++ strBytes " total=" ++
      digitsBytes totalParts ++ strBytes " line=" ++ digitsBytes lineLength ++
      strBytes " size=" ++ digitsBytes size ++ strBytes " name=" ++ name
  else
    strBytes "=ybegin line=" ++ digitsBytes lineLength ++
      strBytes " size=" ++ digitsBytes size ++ strBytes " name=" ++ name

/-- Lowercase hexadecimal digit byte, as produced by Go
`hex.EncodeToString`. -/
def hexDigitByte (d : Nat) : Nat := if d < 10 then 48 + d else 87 + d

/-- The two lowercase hex digit bytes of one byte value. -/
def byteHex (b : Nat) : List Nat := [hexDigitByte (b / 16 % 16), hexDigitByte (b % 16)]

/-- ASCII uppercase conversion of one byte, the relevant case of Go
`strings.ToUpper` (the input here is always a hex digit). -/
def asciiUpperByte (c : Nat) : Nat := if 97 ≤ c ∧ c ≤ 122 then c - 32 else c

/-- The eight uppercase hex digit bytes of a CRC32 value, big-endian
byte order, as assembled by `Encoder.buildTrailer`. -/
def crcHexBytes (crc : Nat) : List Nat :=
  ([crc / 16777216 % 256, crc / 65536 % 256, crc / 256 % 256, crc % 256].flatMap byteHex).map
    asciiUpperByte

/-- Model of `Encoder.buildTrailer`. -/
def buildTrailer (size crc : Nat) : List Nat :=
  strBytes "=yend size=" ++ digitsBytes size ++ strBytes " crc32=" ++ crcHexBytes crc

/-- CR LF line terminator bytes. -/
def crlf : List Nat := [13, 10]

/-- Model of `Encoder.Encode`: header line, encoded content lines and
trailer line, each CR LF terminated. -/
def Encode (data name : List Nat) (partNum totalParts : Nat) : List Nat :=
  buildHeader name partNum totalParts data.length ++ crlf ++
    (splitIntoLines (encodeData data)).flatMap (fun l => l ++ crlf) ++
    buildTrailer data.length (crc32 data) ++ crlf

/-- Model of Go `strings.Split` on the separator CR LF: cut at each
leftmost non-overlapping occurrence of the byte pair 13 10. -/
def splitCRLF : List Nat → List (List Nat)
  | [] => [[]]
  | [c] => [[c]]
  | c :: d :: rest =>
    if c = 13 ∧ d = 10 then [] :: splitCRLF rest
    else
      match splitCRLF (d :: rest) with
      | [] => [[c]]
      | h :: t => (c :: h) :: t

/-- Whether a line starts with the yEnc header keyword. -/
def ybeginPrefix (l : List Nat) : Bool := (strBytes "=ybegin").isPrefixOf l

/-- Whether a line starts with the yEnc trailer keyword. -/
def yendPrefix (l : List Nat) : Bool := (strBytes "=yend").isPrefixOf l

/-- The frame scan of `Decode`: every line carrying the header prefix
moves the start just past it, and the first line carrying the trailer
prefix ends the scan. -/
def scanFrame : List (List Nat) → Nat → Nat → Nat → Nat × Nat
  | [], _, s, e => (s, e)
  | l :: ls, i, s, e =>
    let s2 := if ybeginPrefix l then i + 1 else s
    if yendPrefix l then (s2, i) else scanFrame ls (i + 1) s2 e

/-- Model of `decodeLine`: undo the add-42 transformation, treating
0x3D as an escape consuming the following byte; a trailing unpaired
escape is an error. -/
def decodeLine : List Nat → Except String (List Nat)
  | [] => .ok []
  | c :: rest =>
    if c = 61 then
      match rest with
      | [] => .error "incomplete escape sequence"
      | x :: rest2 => (decodeLine rest2).map (fun ds => byteSub (byteSub x 64) 42 :: ds)
    else (decodeLine rest).map (fun ds => byteSub c 42 :: ds)

/-- The content loop of `Decode`: decode each line in order, stopping
at the first error. -/
def decodeLines : List (List Nat) → Except String (List Nat)
  | [] => .ok []
  | l :: ls =>
    match decodeLine l with
    | .error e => .error e
    | .ok d =>
      match decodeLines ls with
      | .error e => .error e
      | .ok ds => .ok (d ++ ds)

/-- The list of content lines that `Decode` processes: split on CR LF,
locate the frame, keep the lines strictly between header and trailer. -/
def decodeSlice (encoded : List Nat) : List (List Nat) :=
  let lines := splitCRLF encoded
  let se := scanFrame lines 0 0 lines.length
  (lines.drop se.1).take (se.2 - se.1)

/-- Model of `Decode`: split on CR LF, locate the frame, decode the
lines strictly between header and trailer. -/
def Decode (encoded : List Nat) : Except String (List Nat) :=
  decodeLines (decodeSlice encoded)

/-- Observer (specification side, not from the source): the first line
of an encoded article carrying the trailer keyword. -/
def trailerLineOf (encoded : List Nat) : Option (List Nat) :=
  (splitCRLF encoded).find? (fun l => yendPrefix l)

/-- Observer (specification side, not from the source): search a line
for the crc32 field and return the eight bytes that follow it. -/
def findCrc : List Nat → Option (List Nat)
  | [] => none
  | c :: rest =>
    if (strBytes "crc32=").isPrefixOf (c :: rest) then some (((c :: rest).drop 6).take 8)
    else findCrc rest

/-- Numeric value of one hex digit byte, uppercase letter range. -/
def hexVal (b : Nat) : Nat := if b ≤ 57 then b - 48 else b - 55

/-- Numeric value of a big-endian string of hex digit bytes. -/
def hexListVal (l : List Nat) : Nat := l.foldl (fun a b => 16 * a + hexVal b) 0

/-- Observer (specification side): the numeric crc32 value written in
the =yend trailer of an encoded article. -/
def trailerCrcOf (encoded : List Nat) : Option Nat :=
  (trailerLineOf encoded).bind (fun t => (findCrc t).map hexListVal)

/-- Whether a line ends in an unpaired escape byte, the exact failure
condition of `decodeLine`. -/
def endsWithLoneEscape : List Nat → Bool
  | [] => false
  | c :: rest =>
    if c = 61 then
      match rest with
      | [] => true
      | _ :: rest2 => endsWithLoneEscape rest2
    else endsWithLoneEscape rest

/-- The admissible second bytes of a yEnc escape pair. -/
def escSecond (x : Nat) : Bool := x == 64 || x == 73 || x == 74 || x == 77 || x == 125

/-- Whether every escape byte in a stream starts a two-byte escape
pair whose second byte is an admissible escape value. -/
def escapeOk : List Nat → Bool
  | [] => true
  | c :: rest =>
    if c = 61 then
      match rest with
      | [] => false
      | x :: rest2 => escSecond x && escapeOk rest2
    else escapeOk rest

/-- Whether a line is benign for frame detection: it does not start
with an escape byte followed by the letter of the frame keywords. -/
def goodLine : List Nat → Bool
  | c :: x :: _ => (c != 61) || escSecond x
  | _ => true

/-- A stream state that is either well escaped or positioned on the
second byte of an escape pair. -/
def midOk (s : List Nat) : Bool :=
  escapeOk s ||
    (match s with
     | x :: tl => escSecond x && escapeOk tl
     | [] => false)

end Yenc

/-! ## Splitter, from internal/splitter (SplitFile) -/

namespace Models

/-- Model of pkg/models FilePart.  The SHA-256 checksum string is kept
abstract: the splitter functions below take the hash function as an
explicit parameter. -/
structure FilePart where
  PartNumber : Nat
  FileName : List Char
  Size : Nat
  Data : List Nat
  Checksum : List Char
  deriving DecidableEq

end Models

namespace Splitter

/-- Possible outcomes of the `SplitFile` read loop.  The Go code can
also loop forever (modelled by exhausted fuel, `none` at the
`Option` layer) or panic in `make` on a negative size (`crash`). -/
inductive SplitOutcome where
  | ok (parts : List Models.FilePart)
  | crash
  deriving DecidableEq

/-- The `partSize` computed at the top of each loop iteration of
`SplitFile`: the configured `maxPartSize`, clamped down to the number
of remaining bytes when fewer remain. -/
def goPartSize (remaining : List Nat) (mps : Int) : Int :=
  if (remaining.length : Int) < mps then (remaining.length : Int) else mps

/-- One-loop-at-a-time model of the read loop of `Splitter.SplitFile`.
`remaining` is the unread suffix of the file, `mps` the configured
`maxPartSize` (a Go `int64`, hence `Int`).  Each iteration computes
`partSize`, reads that many bytes (`file.Read` into a buffer of that
size fills it completely here since `partSize` never exceeds the
remainder), and appends a part when the read returned data.  With
`partSize = 0` the read returns no data and no error, so the loop
repeats without progress; a negative `partSize` makes
`make([]byte, partSize)` panic. -/
def splitLoop (hash : List Nat → List Char) (fileName : List Char) :
    Nat → List Nat → Int → Nat → List Models.FilePart → Option SplitOutcome
  | 0, _, _, _, _ => none
  | fuel + 1, remaining, mps, partNumber, acc =>
    if remaining.length = 0 then some (.ok acc.reverse)
    else
      if goPartSize remaining mps < 0 then some .crash
      else
        if 0 < (goPartSize remaining mps).toNat then
          splitLoop hash fileName fuel (remaining.drop (goPartSize remaining mps).toNat) mps
            (partNumber + 1)
            ({ PartNumber := partNumber, FileName := fileName,
               Size := (goPartSize remaining mps).toNat,
               Data := remaining.take (goPartSize remaining mps).toNat,
               Checksum := hash (remaining.take (goPartSize remaining mps).toNat) } :: acc)
        else splitLoop hash fileName fuel remaining mps partNumber acc

/-- Model of `Splitter.SplitFile` on the in-memory byte content of the
file, with explicit fuel for the read loop.  `NewSplitter` stores
`maxPartSize` without any validation. -/
def SplitFile (hash : List Nat → List Char) (fileName : List Char) (fuel : Nat)
    (data : List Nat) (mps : Int) : Option SplitOutcome :=
  splitLoop hash fileName fuel data mps 1 []

/-- The parts built from a list of data chunks, numbered from `pn`. -/
def numberParts (hash : List Nat → List Char) (fileName : List Char) :
    Nat → List (List Nat) → List Models.FilePart
  | _, [] => []
  | pn, c :: cs =>
    { PartNumber := pn, FileName := fileName, Size := c.length, Data := c,
      Checksum := hash c } :: numberParts hash fileName (pn + 1) cs

end Splitter

/-! ## PAR2 generator, from internal/par2/generator.go -/

namespace Par2

/-- Model of `Generator.calculateSliceSize`. -/
def calculateSliceSize (fileSize : Nat) : Nat :=
  if fileSize < 1048576 then 4096
  else if fileSize < 104857600 then 65536
  else if fileSize < 1073741824 then 262144
  else 524288

/-- Total size of all parts, as summed over `os.Stat` results. -/
def totalSizeOf (parts : List (List Nat)) : Nat := (parts.map List.length).sum

/-- The ceiling shard count `(totalSize + sliceSize - 1) / sliceSize`. -/
def numSlicesOf (totalSize sliceSize : Nat) : Nat := (totalSize + sliceSize - 1) / sliceSize

/-- The parity shard count.  The Go code computes
`int(float64(numSlices) * float64(redundancy) / 100.0)` and clamps the
result below at 1; for the integer ranges reachable here (shard counts
at most 256 after the encoder check, redundancy a configured
percentage) the float64 computation is exact down to the floor, since
the exact quotient is a multiple of 1/100 and so never lies within one
ulp of an integer without being one. -/
def parityShardsOf (numSlices redundancy : Nat) : Nat :=
  max 1 (numSlices * redundancy / 100)

/-- The per-part shard read loop: each `file.Read` fills a fresh
`sliceSize` buffer, the partial final read of a part being left
zero-padded; each part therefore starts a fresh shard. -/
def chunkPad (ss : Nat) (part : List Nat) : List (List Nat) :=
  (chunkList ss part).map (fun c => c ++ List.replicate (ss - c.length) 0)

/-- Model of `copy(recoveryData[i*ss:(i+1)*ss], shards[numSlices+i])`:
the window receives at most `ss` bytes of the source and keeps its
zero initialisation beyond the source length. -/
def takePadSlice (ss : Nat) (l : List Nat) : List Nat :=
  l.take ss ++ List.replicate (ss - l.length) 0

/-- Model of `Generator.generateRecoveryDataReedSolomonFromParts`.
The klauspost Reed-Solomon encoder appears through two interfaces:
`reedsolomon.New(numSlices, parityShards)` fails when there is no data
shard or when data plus parity exceed the GF(2^8) limit of 256 total
shards; `enc.Encode` fills each allocated parity buffer with a
codeword, modelled by the abstract parity function `rsParity` (its
content never matters to the claims below). -/
def generateRecoveryDataReedSolomonFromParts
    (rsParity : Nat → List (List Nat) → Nat → List Nat)
    (parts : List (List Nat)) (sliceSize redundancy : Nat) : Except String (List Nat) :=
  if numSlicesOf (totalSizeOf parts) sliceSize = 0 then
    .error "cannot create Encoder with less than one data shard"
  else if 256 < numSlicesOf (totalSizeOf parts) sliceSize +
      parityShardsOf (numSlicesOf (totalSizeOf parts) sliceSize) redundancy then
    .error "cannot create Encoder with more than 256 data and parity shards"
  else
    .ok ((List.range (parityShardsOf (numSlicesOf (totalSizeOf parts) sliceSize)
        redundancy)).flatMap
      (fun i => takePadSlice sliceSize
        (rsParity sliceSize
          ((parts.flatMap (chunkPad sliceSize)).take
            (numSlicesOf (totalSizeOf parts) sliceSize)) i)))

/-- The little-endian byte string of width `w` of a value. -/
def toLE (w n : Nat) : List Nat := (List.range w).map (fun i => n / 256 ^ i % 256)

/-- Model of `Generator.createFileDescription`. -/
def createFileDescription (fileName : List Nat) (fileSize sliceSize numSlices : Nat)
    (fileHash : List Nat) : List Nat :=
  fileName ++ [0] ++ toLE 8 fileSize ++ toLE 4 sliceSize ++ toLE 4 numSlices ++ fileHash

/-- Model of `Generator.writePAR2IndexFileForParts` on the in-memory
named part contents, with the SHA-256 of a file abstracted by
`hashFn`. -/
def writePAR2IndexFileForParts (hashFn : List Nat → List Nat)
    (parts : List (List Nat × List Nat)) (sliceSize : Nat) : List Nat :=
  strBytes "PAR2\x00PKT" ++
    parts.flatMap (fun p =>
      createFileDescription p.1 p.2.length sliceSize
        (numSlicesOf p.2.length sliceSize) (hashFn p.2))

end Par2

/-! ## NZB generator, from internal/nzb/generator.go -/

namespace Models

/-- Model of pkg/models PostSegment (the posted-at timestamp is not
consulted by the NZB generator and is omitted). -/
structure PostSegment where
  MessageID : List Char
  PartNumber : Nat
  TotalParts : Nat
  FileName : List Char
  Subject : List Char
  BytesPosted : Nat
  deriving DecidableEq

end Models

namespace Nzb

/-- Model of Go `strings.ReplaceAll` with a single-character pattern:
replace every occurrence of `old` by `rep`. -/
def replaceAllChar (old : Char) (rep : List Char) (s : List Char) : List Char :=
  s.flatMap (fun c => if c = old then rep else [c])

/-- Model of `sanitizeXML`: the five replacements in source order
(ampersand first, apostrophe last). -/
def sanitizeXML (s : List Char) : List Char :=
  replaceAllChar (Char.ofNat 39) (strChars "&apos;")
    (replaceAllChar (Char.ofNat 34) (strChars "&quot;")
      (replaceAllChar (Char.ofNat 62) (strChars "&gt;")
        (replaceAllChar (Char.ofNat 60) (strChars "&lt;")
          (replaceAllChar (Char.ofNat 38) (strChars "&amp;") s))))

/-- Whether a character is one of the angle bracket characters, the
cutset of `strings.Trim(messageID, "<>")`. -/
def isAngle (c : Char) : Bool := c == Char.ofNat 60 || c == Char.ofNat 62

/-- Model of `generateSegmentID`: `strings.Trim(messageID, "<>")`
removes every leading and trailing angle bracket. -/
def generateSegmentID (messageID : List Char) : List Char :=
  ((messageID.dropWhile isAngle).reverse.dropWhile isAngle).reverse

/-- The fixed prefix of one segment element, up to the point where the
Message-ID text is spliced in. -/
def segmentLinePrefix (seg : Models.PostSegment) : List Char :=
  strChars "      <segment bytes=\"" ++ natDigits seg.BytesPosted ++
    strChars "\" number=\"" ++ natDigits seg.PartNumber ++ strChars "\">"

/-- One segment element as emitted by `buildNZBContent`: the numeric
attributes are formatted with `%d` and the Message-ID is spliced in
verbatim after bracket trimming, with no XML escaping. -/
def segmentLine (seg : Models.PostSegment) : List Char :=
  segmentLinePrefix seg ++ generateSegmentID seg.MessageID ++ strChars "</segment>\n"

/-- The segment loop of `buildNZBContent` for one file. -/
def segmentsSection (segs : List Models.PostSegment) : List Char :=
  segs.flatMap segmentLine

/-- One group element. -/
def groupLine (g : List Char) : List Char :=
  strChars "      <group>" ++ sanitizeXML g ++ strChars "</group>\n"

/-- One file element as emitted by `buildNZBContent`. -/
def fileEntry (poster : List Char) (date : Nat) (subject : List Char)
    (groups : List (List Char)) (segs : List Models.PostSegment) : List Char :=
  strChars "  <file poster=\"" ++ sanitizeXML poster ++ strChars "\" date=\"" ++
    natDigits date ++ strChars "\" subject=\"" ++ sanitizeXML subject ++
    strChars "\">\n    <groups>\n" ++ groups.flatMap groupLine ++
    strChars "    </groups>\n    <segments>\n" ++ segmentsSection segs ++
    strChars "    </segments>\n  </file>\n"

/-- The fixed document head with the escaped title spliced in. -/
def nzbHeader (fileName : List Char) : List Char :=
  strChars "<?xml version=\"1.0\" encoding=\"iso-8859-1\"?>\n<!DOCTYPE nzb PUBLIC \"-//newzBin//DTD NZB 1.1//EN\" \"http://www.newzbin.com/DTD/nzb/nzb-1.1.dtd\">\n<nzb xmlns=\"http://www.newzbin.com/DTD/2003/nzb\">\n  <head>\n    <meta type=\"title\">" ++
    sanitizeXML fileName ++
    strChars "</meta>\n    <meta type=\"category\">misc</meta>\n    <meta type=\"tag\">AI</meta>\n  </head>\n"

/-- Whether a character is ASCII whitespace, the cases of
`strings.TrimSpace` relevant to group lists. -/
def isSpaceChar (c : Char) : Bool :=
  c == Char.ofNat 32 || c == Char.ofNat 9 || c == Char.ofNat 10 || c == Char.ofNat 13

/-- Model of `strings.TrimSpace`. -/
def trimSpace (s : List Char) : List Char :=
  ((s.dropWhile isSpaceChar).reverse.dropWhile isSpaceChar).reverse

/-- Model of `strings.Split` on a comma. -/
def splitComma : List Char → List (List Char)
  | [] => [[]]
  | c :: rest =>
    if c = Char.ofNat 44 then [] :: splitComma rest
    else
      match splitComma rest with
      | [] => [[c]]
      | h :: t => (c :: h) :: t

/-- The group list of `buildNZBContent`: split on commas, each entry
whitespace trimmed. -/
def splitGroups (group : List Char) : List (List Char) :=
  (splitComma group).map trimSpace

/-- The subject taken from the first segment record of a file. -/
def headSubject (segs : List Models.PostSegment) : List Char :=
  match segs with
  | [] => []
  | sg :: _ => sg.Subject

/-- The file loop of `buildNZBContent`: a file with no segments is
skipped, every other file is emitted with the configured poster, the
write-time date and the subject of its first segment record. -/
def fileBlocks (poster : List Char) (date : Nat) (groups : List (List Char)) :
    List (List Char × List Models.PostSegment) → List Char
  | [] => []
  | (_, segs) :: rest =>
    (if segs.isEmpty then [] else fileEntry poster date (headSubject segs) groups segs) ++
      fileBlocks poster date groups rest

/-- Model of `Generator.buildNZBContent`.  `additionalFiles` is a Go
map; its iteration order is arbitrary and is represented here by the
order of the list.  The generator appends the additional files with
nonempty segment lists after the main file and closes the document. -/
def buildNZBContent (poster fileName : List Char)
    (segments : List Models.PostSegment) (group : List Char) (date : Nat)
    (additionalFiles : List (List Char × List Models.PostSegment)) : List Char :=
  nzbHeader fileName ++
    fileBlocks poster date (splitGroups group)
      ((fileName, segments) :: additionalFiles.filter (fun p => ¬ p.2.isEmpty)) ++
    strChars "</nzb>"

/-- Observer (specification side): the marker preceding each number
attribute of a segment element. -/
def numMarker : List Char := strChars "\" number=\""

/-- Observer (specification side): fueled scan extracting, in document
order, the digit runs that follow each occurrence of the number
attribute marker. -/
def segNumbersAux : Nat → List Char → List Nat
  | 0, _ => []
  | _ + 1, [] => []
  | f + 1, c :: cs =>
    if numMarker.isPrefixOf (c :: cs) then
      digitsVal (((c :: cs).drop numMarker.length).takeWhile Char.isDigit) ::
        segNumbersAux f (((c :: cs).drop numMarker.length).dropWhile Char.isDigit)
    else segNumbersAux f cs

/-- Observer: the sequence of number attribute values of a document,
in emission order. -/
def segNumbers (s : List Char) : List Nat := segNumbersAux s.length s

/-- Observer (specification side): whether every ampersand of the
document opens one of the five XML entities (the meaning of having
the character escaped). -/
def ampEscapedAux : Nat → List Char → Bool
  | 0, _ => true
  | _ + 1, [] => true
  | f + 1, c :: cs =>
    if c = Char.ofNat 38 then
      ((strChars "amp;").isPrefixOf cs || (strChars "lt;").isPrefixOf cs ||
        (strChars "gt;").isPrefixOf cs || (strChars "quot;").isPrefixOf cs ||
        (strChars "apos;").isPrefixOf cs) && ampEscapedAux f cs
    else ampEscapedAux f cs

/-- Observer: every ampersand of the document is escaped. -/
def ampersandsEscaped (s : List Char) : Bool := ampEscapedAux s.length s

end Nzb

/-! ### Scanning a document for number attributes -/

/-- Concrete segment records for the C2 counterexample, numbered 2 then 1. -/
def c2ExampleSegs : List Models.PostSegment :=
  [⟨strChars "<b@h>", 2, 2, strChars "f", strChars "s", 8⟩,
   ⟨strChars "<a@h>", 1, 2, strChars "f", strChars "s", 7⟩]

/-- The NZB document the generator emits for the C2 counterexample input. -/
def c2ExampleDoc : List Char :=
  Nzb.buildNZBContent (strChars "p") (strChars "f") c2ExampleSegs (strChars "g") 5 []

/-- Concrete segment records for the C2 witness. -/
def c2WitnessSegs : List Models.PostSegment :=
  [⟨strChars "<p1@h>", 1, 2, strChars "f", strChars "s", 7⟩,
   ⟨strChars "<p2@h>", 2, 2, strChars "f", strChars "s", 8⟩]

/-- The segment record with an ampersand in its Message-ID host part, and
the document the generator emits for it (C8 counterexample input). -/
def c8ExampleSegs : List Models.PostSegment :=
  [⟨strChars "<17.5@a&b.example>", 1, 1, strChars "f", strChars "s", 7⟩]

/-- The NZB document the generator emits for the C8 counterexample input. -/
def c8ExampleDoc : List Char :=
  Nzb.buildNZBContent (strChars "p") (strChars "f") c8ExampleSegs (strChars "g") 5 []

/-! ## NNTP client and connection pool, from internal/progress/tracker.go
(nntp package sources) -/

namespace Nntp

/-- Model of the Message-ID minting expression of `PostArticle`:
`fmt.Sprintf("<%d.%d@%s>", time.Now().UnixNano(), time.Now().Unix(),
c.config.Host)`.  It is a pure function of the two clock samples and the
configured host; the client keeps no counter and draws no randomness. -/
def mintMessageID (nanos secs : Nat) (host : List Char) : List Char :=
  strChars "<" ++ natDigits nanos ++ strChars "." ++ natDigits secs ++
    strChars "@" ++ host ++ strChars ">"

/-- The six entries of the `headersToSend` map literal of `PostArticle`.
A Go map has no entry order; this association list records the entry set
(the list order is the source order of the literal, carrying no meaning
for emission). -/
def defaultHeaders (fromV subject group messageID dateV : List Char) :
    List (List Char × List Char) :=
  [(strChars "From", fromV), (strChars "Subject", subject),
   (strChars "Newsgroups", group), (strChars "Message-ID", messageID),
   (strChars "Date", dateV),
   (strChars "Content-Type", strChars "text/plain; charset=UTF-8")]

/-- Model of the map assignment `headersToSend[k] = v`: replace the entry
if the key is present, append it otherwise. -/
def upsert (k v : List Char) (m : List (List Char × List Char)) :
    List (List Char × List Char) :=
  if m.any (fun p => p.1 == k) then m.map (fun p => if p.1 == k then (k, v) else p)
  else m ++ [(k, v)]

/-- The `headersToSend` map after the custom-header loop
`for k, v := range headers { headersToSend[k] = v }`. -/
def headersToSend (fromV subject group messageID dateV : List Char)
    (extras : List (List Char × List Char)) : List (List Char × List Char) :=
  extras.foldl (fun m p => upsert p.1 p.2 m)
    (defaultHeaders fromV subject group messageID dateV)

/-- The header emission loop `for key, value := range headersToSend`:
Go iterates the map in an unspecified key order `ord`; each iteration
writes the key together with its map value. -/
def emitHeaders (ord : List (List Char))
    (m : List (List Char × List Char)) : List (List Char × List Char) :=
  ord.map (fun k => (k, ((m.lookup k).getD [])))

/-- Specification-side definition (the order the claim asserts): the six
default headers in the fixed order From, Subject, Newsgroups, Message-ID,
Date, Content-Type, followed by the extra headers. -/
def claimedEmission (fromV subject group messageID dateV : List Char)
    (extras : List (List Char × List Char)) : List (List Char × List Char) :=
  defaultHeaders fromV subject group messageID dateV ++ extras

/-- Pool state: one flag per created client (`true` = IsConnected), in
creation order, plus the round-robin counter.  Connect and Authenticate
are modelled as succeeding; a failed creation leaves the pool unchanged
in the source, so it does not affect the state evolution. -/
structure PoolState where
  clients : List Bool
  current : Nat

/-- The scan `for _, client := range p.clients { if client.IsConnected()
{ return client } }`: index of the first connected client. -/
def findConnected (clients : List Bool) : Option Nat :=
  clients.findIdx? (fun b => b)

/-- Model of `ConnectionPool.GetClient`: returns the index of the handed
client (its identity) together with the new pool state, or `none` for the
"no clients available" error. -/
def getClient (maxConns : Nat) (s : PoolState) : Option (Nat × PoolState) :=
  match findConnected s.clients with
  | some i => some (i, s)
  | none =>
    if s.clients.length < maxConns then
      some (s.clients.length, ⟨s.clients ++ [true], s.current⟩)
    else if 0 < s.clients.length then
      some (s.current % s.clients.length, ⟨s.clients, s.current + 1⟩)
    else none

/-- Model of `ConnectionPool.CloseAll`: quits every client and sets
`p.clients = nil`. -/
def closeAll (s : PoolState) : PoolState := ⟨[], s.current⟩

/-- The pool operations a caller can perform.  The source has no release
operation: `GetClient` is the only way clients are handed out and nothing
records a lease. -/
inductive PoolOp where
  | get : PoolOp
  | closeAll : PoolOp

/-- A sequence of pool operations acting on the state. -/
def runPool (maxConns : Nat) : List PoolOp → PoolState → PoolState
  | [], s => s
  | PoolOp.get :: ops, s =>
    runPool maxConns ops
      (match getClient maxConns s with
        | some (_, s2) => s2
        | none => s)
  | PoolOp.closeAll :: ops, s => runPool maxConns ops (closeAll s)

/-- The empty pool `NewConnectionPool` starts with. -/
def initPool : PoolState := ⟨[], 0⟩

end Nntp

/-- The extra headers used in the C5 example (one custom header). -/
def c5Extras : List (List Char × List Char) := [(strChars "X-A", strChars "1")]

/-- The headersToSend map of the C5 example. -/
def c5Map : List (List Char × List Char) :=
  Nntp.headersToSend (strChars "F") (strChars "S") (strChars "G") (strChars "M")
    (strChars "D") c5Extras

/-- A key enumeration of the C5 example map in the claimed order. -/
def c5Ord : List (List Char) :=
  [strChars "From", strChars "Subject", strChars "Newsgroups", strChars "Message-ID",
   strChars "Date", strChars "Content-Type", strChars "X-A"]

/-- A reversed key enumeration of the C5 example map: an equally legitimate
Go map iteration order. -/
def c5RevOrd : List (List Char) :=
  [strChars "X-A", strChars "Content-Type", strChars "Date", strChars "Message-ID",
   strChars "Newsgroups", strChars "Subject", strChars "From"]

end YPost

/-! ## Theorems -/

namespace YPost

theorem chunkAux_fuel (n : Nat) (hn : 0 < n) (f : Nat) (l : List Nat) (hl : l.length ≤ f) :
    chunkAux n f l = chunkAux n l.length l := by
  match f, l with
  | 0, [] => rfl
  | 0, x :: xs => simp at hl
  | f + 1, [] => rfl
  | f + 1, x :: xs =>
    have hl2 : xs.length + 1 ≤ f + 1 := by simpa using hl
    have hd : ((x :: xs).drop n).length ≤ f := by
      simp only [List.length_drop, List.length_cons]; omega
    have hd2 : ((x :: xs).drop n).length ≤ xs.length := by
      simp only [List.length_drop, List.length_cons]; omega
    have hxs : xs.length < f + 1 := by omega
    calc chunkAux n (f + 1) (x :: xs)
        = (x :: xs).take n :: chunkAux n f ((x :: xs).drop n) := rfl
      _ = (x :: xs).take n :: chunkAux n ((x :: xs).drop n).length ((x :: xs).drop n) := by
          rw [chunkAux_fuel n hn f _ hd]
      _ = (x :: xs).take n :: chunkAux n xs.length ((x :: xs).drop n) := by
          rw [chunkAux_fuel n hn xs.length _ hd2]
      _ = chunkAux n (x :: xs).length (x :: xs) := rfl
termination_by f

theorem chunkList_nil (n : Nat) : chunkList n [] = [] := by
  cases n <;> rfl

theorem chunkList_cons (n : Nat) (hn : 0 < n) (x : Nat) (xs : List Nat) :
    chunkList n (x :: xs) = (x :: xs).take n :: chunkList n ((x :: xs).drop n) := by
  show chunkAux n (xs.length + 1) (x :: xs) = _
  show _ :: chunkAux n xs.length ((x :: xs).drop n) = _
  rw [chunkAux_fuel n hn xs.length ((x :: xs).drop n)
    (by simp only [List.length_drop, List.length_cons]; omega)]
  rfl

/-- Chunking a nonempty list peels off the first piece. -/
theorem chunkList_eq_cons (n : Nat) (hn : 0 < n) (l : List Nat) (hl : l ≠ []) :
    chunkList n l = l.take n :: chunkList n (l.drop n) := by
  cases l with
  | nil => exact absurd rfl hl
  | cons x xs => exact chunkList_cons n hn x xs

/-- Flattening the chunks recovers the original list. -/
theorem chunkList_flatten (n : Nat) (hn : 0 < n) (l : List Nat) :
    (chunkList n l).flatten = l := by
  cases l with
  | nil => rw [chunkList_nil]; rfl
  | cons x xs =>
    rw [chunkList_cons n hn, List.flatten_cons, chunkList_flatten n hn ((x :: xs).drop n)]
    exact List.take_append_drop n (x :: xs)
termination_by l.length
decreasing_by simp only [List.length_drop, List.length_cons]; omega

namespace Yenc

/-! ### Supporting lemmas for the codec proofs -/

theorem digitChar_toNat (d : Nat) (h : d < 10) : (digitChar d).toNat = 48 + d := by
  revert d
  decide

theorem natDigitsAux_digits (f : Nat) :
    ∀ n c, c ∈ natDigitsAux f n → 48 ≤ c.toNat ∧ c.toNat ≤ 57 := by
  induction f with
  | zero => intro n c hc; simp [natDigitsAux] at hc
  | succ f ih =>
    intro n c hc
    simp only [natDigitsAux] at hc
    by_cases h : n < 10
    · rw [if_pos h] at hc
      simp only [List.mem_singleton] at hc
      subst hc
      rw [digitChar_toNat n h]
      omega
    · rw [if_neg h] at hc
      rcases List.mem_append.mp hc with h1 | h2
      · exact ih _ _ h1
      · simp only [List.mem_singleton] at h2
        subst h2
        rw [digitChar_toNat _ (Nat.mod_lt n (by omega))]
        have := Nat.mod_lt n (show 0 < 10 by omega)
        omega

theorem digitsBytes_digits (n : Nat) (b : Nat) (hb : b ∈ digitsBytes n) :
    48 ≤ b ∧ b ≤ 57 := by
  simp only [digitsBytes, natDigits, List.mem_map] at hb
  obtain ⟨c, hc, rfl⟩ := hb
  exact natDigitsAux_digits _ _ _ hc

theorem not_mem_digitsBytes (n b : Nat) (hb : b < 48 ∨ 57 < b) : b ∉ digitsBytes n := by
  intro h
  have := digitsBytes_digits n b h
  omega

theorem not_mem_strBytes (s : String) (b : Nat) (h : decide (b ∈ strBytes s) = false) :
    b ∉ strBytes s := by
  simpa using h

/-- Unfolding equation: escape pair at the front of a line. -/
theorem decodeLine_esc (a : Nat) (rest : List Nat) :
    decodeLine (61 :: a :: rest) =
      (decodeLine rest).map (fun ds => byteSub (byteSub a 64) 42 :: ds) := rfl

/-- Unfolding equation: a line that is exactly one escape byte. -/
theorem decodeLine_esc_nil : decodeLine [61] = .error "incomplete escape sequence" := rfl

/-- Unfolding equation: plain byte at the front of a line. -/
theorem decodeLine_plain (c : Nat) (hc : c ≠ 61) (rest : List Nat) :
    decodeLine (c :: rest) = (decodeLine rest).map (fun ds => byteSub c 42 :: ds) := by
  conv_lhs => unfold decodeLine
  rw [if_neg hc]

/-- Decoding inverts one encoded byte placed in front of any suffix. -/
theorem decodeLine_encodeByte (b : Nat) (hb : b < 256) (rest : List Nat) :
    decodeLine (encodeByte b ++ rest) = (decodeLine rest).map (fun ds => b :: ds) := by
  by_cases h : (b + 42) % 256 = 0 ∨ (b + 42) % 256 = 9 ∨ (b + 42) % 256 = 10 ∨
      (b + 42) % 256 = 13 ∨ (b + 42) % 256 = 61
  · have he : encodeByte b = [61, ((b + 42) % 256 + 64) % 256] := by
      simp only [encodeByte]
      rw [if_pos h]
    rw [he, List.cons_append, List.cons_append, List.nil_append, decodeLine_esc]
    have harith : byteSub (byteSub (((b + 42) % 256 + 64) % 256) 64) 42 = b := by
      unfold byteSub
      omega
    rw [harith]
  · have he : encodeByte b = [(b + 42) % 256] := by
      simp only [encodeByte]
      rw [if_neg h]
    have hne : (b + 42) % 256 ≠ 61 := by tauto
    rw [he, List.cons_append, List.nil_append, decodeLine_plain _ hne]
    have harith : byteSub ((b + 42) % 256) 42 = b := by
      unfold byteSub
      omega
    rw [harith]

/-- Decoding inverts the byte-level encoding. -/
theorem decodeLine_encodeData (data : List Nat) (hd : ∀ v ∈ data, v < 256) :
    decodeLine (encodeData data) = .ok data := by
  induction data with
  | nil => rfl
  | cons b rest ih =>
    rw [encodeData, List.flatMap_cons]
    show decodeLine (encodeByte b ++ encodeData rest) = _
    rw [decodeLine_encodeByte b (hd b (by simp)), ih (fun v hv => hd v (by simp [hv]))]
    rfl

/-- A successfully decodable prefix splits off of a longer line. -/
theorem decodeLine_append (x y dx : List Nat) (h : decodeLine x = .ok dx) :
    decodeLine (x ++ y) = (decodeLine y).map (fun ds => dx ++ ds) := by
  cases x with
  | nil =>
    simp only [decodeLine] at h
    cases h
    cases hy : decodeLine y <;> simp [hy, Except.map]
  | cons c rest =>
    by_cases hc : c = 61
    · subst hc
      cases rest with
      | nil =>
        rw [decodeLine_esc_nil] at h
        cases h
      | cons a rest2 =>
        rw [decodeLine_esc] at h
        rw [List.cons_append, List.cons_append, decodeLine_esc]
        cases hr : decodeLine rest2 with
        | error e2 => rw [hr] at h; simp [Except.map] at h
        | ok d2 =>
          rw [hr] at h
          simp only [Except.map] at h
          cases h
          rw [decodeLine_append rest2 y d2 hr]
          cases hy : decodeLine y <;> simp [Except.map]
    · rw [decodeLine_plain _ hc] at h
      rw [List.cons_append, decodeLine_plain _ hc]
      cases hr : decodeLine rest with
      | error e2 => rw [hr] at h; simp [Except.map] at h
      | ok d2 =>
        rw [hr] at h
        simp only [Except.map] at h
        cases h
        rw [decodeLine_append rest y d2 hr]
        cases hy : decodeLine y <;> simp [Except.map]
termination_by x.length

/-- The decoder produces only the incomplete escape error. -/
theorem decodeLine_error_eq (l : List Nat) (e : String) (h : decodeLine l = .error e) :
    e = "incomplete escape sequence" := by
  cases l with
  | nil => simp [decodeLine] at h
  | cons c rest =>
    by_cases hc : c = 61
    · subst hc
      cases rest with
      | nil =>
        rw [decodeLine_esc_nil] at h
        cases h
        rfl
      | cons a rest2 =>
        rw [decodeLine_esc] at h
        cases hr : decodeLine rest2 with
        | error e2 =>
          rw [hr] at h
          simp only [Except.map] at h
          cases h
          exact decodeLine_error_eq rest2 _ hr
        | ok d2 => rw [hr] at h; simp [Except.map] at h
    · rw [decodeLine_plain _ hc] at h
      cases hr : decodeLine rest with
      | error e2 =>
        rw [hr] at h
        simp only [Except.map] at h
        cases h
        exact decodeLine_error_eq rest _ hr
      | ok d2 => rw [hr] at h; simp [Except.map] at h
termination_by l.length

/-- Unfolding equation: escape at the front of a nonempty rest. -/
theorem endsWithLoneEscape_esc (a : Nat) (rest : List Nat) :
    endsWithLoneEscape (61 :: a :: rest) = endsWithLoneEscape rest := rfl

/-- Unfolding equation: plain byte at the front. -/
theorem endsWithLoneEscape_plain (c : Nat) (hc : c ≠ 61) (rest : List Nat) :
    endsWithLoneEscape (c :: rest) = endsWithLoneEscape rest := by
  conv_lhs => unfold endsWithLoneEscape
  rw [if_neg hc]

/-- Lines not ending in an unpaired escape decode successfully. -/
theorem decodeLine_ok_of_not_lone (l : List Nat) (h : endsWithLoneEscape l = false) :
    ∃ d, decodeLine l = .ok d := by
  cases l with
  | nil => exact ⟨[], rfl⟩
  | cons c rest =>
    by_cases hc : c = 61
    · subst hc
      cases rest with
      | nil => simp [endsWithLoneEscape] at h
      | cons a rest2 =>
        rw [endsWithLoneEscape_esc] at h
        obtain ⟨d, hd⟩ := decodeLine_ok_of_not_lone rest2 h
        exact ⟨byteSub (byteSub a 64) 42 :: d, by rw [decodeLine_esc, hd]; rfl⟩
    · rw [endsWithLoneEscape_plain _ hc] at h
      obtain ⟨d, hd⟩ := decodeLine_ok_of_not_lone rest h
      exact ⟨byteSub c 42 :: d, by rw [decodeLine_plain _ hc, hd]; rfl⟩
termination_by l.length

/-- Unfolding equation: escape pair at the front. -/
theorem escapeOk_esc (x : Nat) (rest : List Nat) :
    escapeOk (61 :: x :: rest) = (escSecond x && escapeOk rest) := rfl

/-- Unfolding equation: plain byte at the front. -/
theorem escapeOk_plain (c : Nat) (hc : c ≠ 61) (rest : List Nat) :
    escapeOk (c :: rest) = escapeOk rest := by
  conv_lhs => unfold escapeOk
  rw [if_neg hc]

/-- The yEnc encoder only emits well-formed escape pairs. -/
theorem escapeOk_encodeData (data : List Nat) : escapeOk (encodeData data) = true := by
  induction data with
  | nil => rfl
  | cons b rest ih =>
    rw [encodeData, List.flatMap_cons]
    show escapeOk (encodeByte b ++ encodeData rest) = true
    by_cases h : (b + 42) % 256 = 0 ∨ (b + 42) % 256 = 9 ∨ (b + 42) % 256 = 10 ∨
        (b + 42) % 256 = 13 ∨ (b + 42) % 256 = 61
    · have he : encodeByte b = [61, ((b + 42) % 256 + 64) % 256] := by
        simp only [encodeByte]
        rw [if_pos h]
      have hsec : escSecond (((b + 42) % 256 + 64) % 256) = true := by
        rcases h with h1 | h1 | h1 | h1 | h1 <;> rw [h1] <;> rfl
      rw [he, List.cons_append, List.cons_append, List.nil_append, escapeOk_esc, hsec,
        Bool.true_and]
      exact ih
    · have he : encodeByte b = [(b + 42) % 256] := by
        simp only [encodeByte]
        rw [if_neg h]
      have hne : (b + 42) % 256 ≠ 61 := by tauto
      rw [he, List.cons_append, List.nil_append, escapeOk_plain _ hne]
      exact ih

/-- A decodable prefix can be dropped from a well-escaped stream. -/
theorem escapeOk_append_drop (x y dx : List Nat) (hok : decodeLine x = .ok dx)
    (h : escapeOk (x ++ y) = true) : escapeOk y = true := by
  cases x with
  | nil => exact h
  | cons c rest =>
    by_cases hc : c = 61
    · subst hc
      cases rest with
      | nil =>
        rw [decodeLine_esc_nil] at hok
        cases hok
      | cons a rest2 =>
        rw [decodeLine_esc] at hok
        rw [List.cons_append, List.cons_append, escapeOk_esc, Bool.and_eq_true] at h
        cases hr : decodeLine rest2 with
        | error e2 => rw [hr] at hok; simp [Except.map] at hok
        | ok d2 => exact escapeOk_append_drop rest2 y d2 hr h.2
    · rw [decodeLine_plain _ hc] at hok
      rw [List.cons_append, escapeOk_plain _ hc] at h
      cases hr : decodeLine rest with
      | error e2 => rw [hr] at hok; simp [Except.map] at hok
      | ok d2 => exact escapeOk_append_drop rest y d2 hr h
termination_by x.length

theorem midOk_of_escapeOk (s : List Nat) (h : escapeOk s = true) : midOk s = true := by
  simp [midOk, h]

theorem midOk_tail (c : Nat) (rest : List Nat) (h : midOk (c :: rest) = true) :
    midOk rest = true := by
  simp only [midOk, Bool.or_eq_true] at h ⊢
  rcases h with h | h
  · by_cases hc : c = 61
    · subst hc
      cases rest with
      | nil => simp [escapeOk] at h
      | cons x rest2 =>
        rw [escapeOk_esc] at h
        right
        exact h
    · rw [escapeOk_plain _ hc] at h
      left
      exact h
  · rw [Bool.and_eq_true] at h
    left
    exact h.2

theorem midOk_drop (s : List Nat) (n : Nat) (h : midOk s = true) :
    midOk (s.drop n) = true := by
  induction n generalizing s with
  | zero => exact h
  | succ n ih =>
    cases s with
    | nil => exact h
    | cons c rest =>
      rw [List.drop_succ_cons]
      exact ih rest (midOk_tail c rest h)

theorem goodLine_take (s : List Nat) (n : Nat) (h : midOk s = true) :
    goodLine (s.take n) = true := by
  cases s with
  | nil => simp [goodLine]
  | cons c rest =>
    cases n with
    | zero => rfl
    | succ n =>
      rw [List.take_succ_cons]
      cases rest with
      | nil => simp [List.take_nil, goodLine]
      | cons x rest2 =>
        cases n with
        | zero => simp [goodLine]
        | succ m =>
          rw [List.take_succ_cons]
          show ((c != 61) || escSecond x) = true
          by_cases hc : c = 61
          · subst hc
            simp only [midOk, Bool.or_eq_true] at h
            rcases h with h | h
            · rw [escapeOk_esc, Bool.and_eq_true] at h
              simp [h.1]
            · rw [Bool.and_eq_true] at h
              simp [escSecond] at h
          · simp [hc]

/-- Every chunk cut out of a well-escaped stream is benign. -/
theorem goodLine_chunkAux (n : Nat) (f : Nat) (s : List Nat) (h : midOk s = true) :
    ∀ l ∈ chunkAux n f s, goodLine l = true := by
  induction f generalizing s with
  | zero => intro l hl; simp [chunkAux] at hl
  | succ f ih =>
    intro l hl
    cases s with
    | nil => simp [chunkAux] at hl
    | cons x xs =>
      have hl2 : l ∈ (x :: xs).take n :: chunkAux n f ((x :: xs).drop n) := hl
      rcases List.mem_cons.mp hl2 with h1 | h1
      · subst h1
        exact goodLine_take _ n h
      · exact ih ((x :: xs).drop n) (midOk_drop _ n h) l h1

theorem goodLine_chunkList (n : Nat) (s : List Nat) (h : escapeOk s = true) :
    ∀ l ∈ chunkList n s, goodLine l = true :=
  goodLine_chunkAux n s.length s (midOk_of_escapeOk s h)

/-- Unfolding equation: nonempty pattern against the empty list. -/
theorem isPrefixOf_cons_nil (a : Nat) (as : List Nat) : (a :: as).isPrefixOf [] = false := rfl

/-- Unfolding equation: pattern and list both nonempty. -/
theorem isPrefixOf_cons_cons (a b : Nat) (as bs : List Nat) :
    (a :: as).isPrefixOf (b :: bs) = ((a == b) && as.isPrefixOf bs) := rfl

/-- Benign lines never look like a frame header line. -/
theorem ybeginPrefix_eq_false (l : List Nat) (h : goodLine l = true) :
    ybeginPrefix l = false := by
  have hpat : strBytes "=ybegin" = [61, 121, 98, 101, 103, 105, 110] := rfl
  cases l with
  | nil => rfl
  | cons c rest =>
    cases rest with
    | nil =>
      rw [ybeginPrefix, hpat, isPrefixOf_cons_cons, isPrefixOf_cons_nil, Bool.and_false]
    | cons x rest2 =>
      have hg : ((c != 61) || escSecond x) = true := h
      rw [ybeginPrefix, hpat, isPrefixOf_cons_cons, isPrefixOf_cons_cons]
      rcases Bool.or_eq_true_iff.mp hg with h1 | h1
      · have hc : (61 == c) = false := by
          simp only [bne_iff_ne, ne_eq] at h1
          simp only [beq_eq_false_iff_ne, ne_eq]
          omega
        rw [hc, Bool.false_and]
      · have hx : (121 == x) = false := by
          simp only [escSecond, Bool.or_eq_true, beq_iff_eq] at h1
          simp only [beq_eq_false_iff_ne, ne_eq]
          omega
        rw [hx, Bool.false_and, Bool.and_false]

/-- Benign lines never look like a frame trailer line. -/
theorem yendPrefix_eq_false (l : List Nat) (h : goodLine l = true) :
    yendPrefix l = false := by
  have hpat : strBytes "=yend" = [61, 121, 101, 110, 100] := rfl
  cases l with
  | nil => rfl
  | cons c rest =>
    cases rest with
    | nil =>
      rw [yendPrefix, hpat, isPrefixOf_cons_cons, isPrefixOf_cons_nil, Bool.and_false]
    | cons x rest2 =>
      have hg : ((c != 61) || escSecond x) = true := h
      rw [yendPrefix, hpat, isPrefixOf_cons_cons, isPrefixOf_cons_cons]
      rcases Bool.or_eq_true_iff.mp hg with h1 | h1
      · have hc : (61 == c) = false := by
          simp only [bne_iff_ne, ne_eq] at h1
          simp only [beq_eq_false_iff_ne, ne_eq]
          omega
        rw [hc, Bool.false_and]
      · have hx : (121 == x) = false := by
          simp only [escSecond, Bool.or_eq_true, beq_iff_eq] at h1
          simp only [beq_eq_false_iff_ne, ne_eq]
          omega
        rw [hx, Bool.false_and, Bool.and_false]

/-- Unfolding equation for the line loop. -/
theorem decodeLines_cons (l : List Nat) (ls : List (List Nat)) :
    decodeLines (l :: ls) =
      match decodeLine l with
      | .error e => .error e
      | .ok d =>
        match decodeLines ls with
        | .error e => .error e
        | .ok ds => .ok (d ++ ds) := rfl

/-- Line-by-line decoding of fully decodable lines agrees with
decoding the concatenation. -/
theorem decodeLines_eq_flatten (lines : List (List Nat))
    (h : ∀ l ∈ lines, ∃ d, decodeLine l = .ok d) :
    decodeLines lines = decodeLine lines.flatten := by
  induction lines with
  | nil => rfl
  | cons l ls ih =>
    obtain ⟨d, hd⟩ := h l (by simp)
    rw [List.flatten_cons, decodeLine_append l ls.flatten d hd]
    show (match decodeLine l with
      | .error e => Except.error e
      | .ok d =>
        match decodeLines ls with
        | .error e => Except.error e
        | .ok ds => Except.ok (d ++ ds)) = _
    rw [hd, ih (fun a ha => h a (by simp [ha]))]
    cases hfl : decodeLine ls.flatten <;> simp [Except.map]

/-- The line loop produces only the incomplete escape error. -/
theorem decodeLines_error_eq (lines : List (List Nat)) (e : String)
    (h : decodeLines lines = .error e) : e = "incomplete escape sequence" := by
  induction lines with
  | nil => simp [decodeLines] at h
  | cons l ls ih =>
    simp only [decodeLines] at h
    cases hl : decodeLine l with
    | error e2 =>
      rw [hl] at h
      cases h
      exact decodeLine_error_eq l _ hl
    | ok d =>
      rw [hl] at h
      cases hls : decodeLines ls with
      | error e2 =>
        rw [hls] at h
        cases h
        exact ih hls
      | ok ds => rw [hls] at h; simp at h

/-! ### Structure of the CR LF split of an encoding -/

/-- Unfolding equation for the two-byte case of the splitter. -/
theorem splitCRLF_cons_cons (c d : Nat) (rest : List Nat) :
    splitCRLF (c :: d :: rest) =
      if c = 13 ∧ d = 10 then [] :: splitCRLF rest
      else
        match splitCRLF (d :: rest) with
        | [] => [[c]]
        | h :: t => (c :: h) :: t := rfl

theorem splitCRLF_ne_nil (l : List Nat) : splitCRLF l ≠ [] := by
  match l with
  | [] => simp [splitCRLF]
  | [c] => simp [splitCRLF]
  | c :: d :: rest =>
    rw [splitCRLF_cons_cons]
    by_cases h : c = 13 ∧ d = 10
    · rw [if_pos h]
      simp
    · rw [if_neg h]
      cases hs : splitCRLF (d :: rest) <;> simp

/-- The splitter cuts off a CR-free line at the first CR LF pair. -/
theorem splitCRLF_append (x y : List Nat) (hx : 13 ∉ x) :
    splitCRLF (x ++ 13 :: 10 :: y) = x :: splitCRLF y := by
  match x with
  | [] => rw [List.nil_append, splitCRLF_cons_cons, if_pos ⟨rfl, rfl⟩]
  | c :: x2 =>
    have hc : c ≠ 13 := fun h => hx (h ▸ List.mem_cons_self c x2)
    have hx2 : 13 ∉ x2 := fun h => hx (List.mem_cons_of_mem c h)
    have ih := splitCRLF_append x2 y hx2
    match x2 with
    | [] =>
      simp only [List.cons_append, List.nil_append]
      rw [splitCRLF_cons_cons, if_neg (fun h => hc h.1)]
      simp only [List.nil_append] at ih
      rw [ih]
    | e :: x3 =>
      simp only [List.cons_append]
      rw [splitCRLF_cons_cons, if_neg (fun h => hc h.1)]
      simp only [List.cons_append] at ih
      rw [ih]

/-- A CR-free list is not split at all. -/
theorem splitCRLF_no_cr (x : List Nat) (hx : 13 ∉ x) : splitCRLF x = [x] := by
  match x with
  | [] => rfl
  | [c] => rfl
  | c :: d :: rest =>
    have hc : c ≠ 13 := fun h => hx (h ▸ List.mem_cons_self c (d :: rest))
    have hrest : 13 ∉ d :: rest := fun h => hx (List.mem_cons_of_mem c h)
    rw [splitCRLF_cons_cons, if_neg (fun h => hc h.1), splitCRLF_no_cr (d :: rest) hrest]

/-- Splitting the content block: each CR LF terminated line is
recovered, followed by the split of the remainder. -/
theorem splitCRLF_flatMap (lines : List (List Nat)) (z : List Nat)
    (h : ∀ l ∈ lines, 13 ∉ l) :
    splitCRLF (lines.flatMap (fun l => l ++ crlf) ++ z) = lines ++ splitCRLF z := by
  induction lines with
  | nil => rfl
  | cons l ls ih =>
    rw [List.flatMap_cons, List.append_assoc]
    rw [show (l ++ crlf) ++ (ls.flatMap (fun l => l ++ crlf) ++ z)
        = l ++ 13 :: 10 :: (ls.flatMap (fun l => l ++ crlf) ++ z) by
      rw [List.append_assoc]
      rfl]
    rw [splitCRLF_append _ _ (h l (by simp)), ih (fun a ha => h a (by simp [ha]))]
    rfl

/-! ### CR-freedom of the generated lines -/

theorem not13_strBytes_pieces :
    13 ∉ strBytes "=ybegin part=" ∧ 13 ∉ strBytes " total=" ∧ 13 ∉ strBytes " line=" ∧
    13 ∉ strBytes " size=" ∧ 13 ∉ strBytes " name=" ∧ 13 ∉ strBytes "=ybegin line=" ∧
    13 ∉ strBytes "=yend size=" ∧ 13 ∉ strBytes " crc32=" := by
  decide

theorem not13_digitsBytes (n : Nat) : 13 ∉ digitsBytes n :=
  not_mem_digitsBytes n 13 (by omega)

theorem not13_buildHeader (name : List Nat) (pt tt size : Nat) (hname : 13 ∉ name) :
    13 ∉ buildHeader name pt tt size := by
  obtain ⟨p1, p2, p3, p4, p5, p6, _, _⟩ := not13_strBytes_pieces
  have d1 := not13_digitsBytes pt
  have d2 := not13_digitsBytes tt
  have d3 := not13_digitsBytes lineLength
  have d4 := not13_digitsBytes size
  intro hmem
  unfold buildHeader at hmem
  by_cases h : 1 < tt
  · rw [if_pos h] at hmem
    simp only [List.mem_append] at hmem
    tauto
  · rw [if_neg h] at hmem
    simp only [List.mem_append] at hmem
    tauto

theorem not13_crcHexBytes (crc : Nat) : 13 ∉ crcHexBytes crc := by
  intro hmem
  simp only [crcHexBytes, List.mem_map, List.mem_flatMap, byteHex] at hmem
  obtain ⟨b, ⟨v, _, hb⟩, hup⟩ := hmem
  have hhex : ∀ d, d < 16 → asciiUpperByte (hexDigitByte d) ≠ 13 := by decide
  simp only [List.mem_cons, List.mem_singleton, List.not_mem_nil, or_false] at hb
  rcases hb with h1 | h1 <;> subst h1 <;> exact hhex _ (Nat.mod_lt _ (by omega)) hup

theorem not13_buildTrailer (size crc : Nat) : 13 ∉ buildTrailer size crc := by
  obtain ⟨_, _, _, _, _, _, p7, p8⟩ := not13_strBytes_pieces
  have d4 := not13_digitsBytes size
  have hx := not13_crcHexBytes crc
  intro hmem
  unfold buildTrailer at hmem
  simp only [List.mem_append] at hmem
  tauto

theorem not13_encodeData (data : List Nat) : 13 ∉ encodeData data := by
  intro hmem
  simp only [encodeData, List.mem_flatMap] at hmem
  obtain ⟨b, _, hb⟩ := hmem
  by_cases h : (b + 42) % 256 = 0 ∨ (b + 42) % 256 = 9 ∨ (b + 42) % 256 = 10 ∨
      (b + 42) % 256 = 13 ∨ (b + 42) % 256 = 61
  · have he : encodeByte b = [61, ((b + 42) % 256 + 64) % 256] := by
      simp only [encodeByte]
      rw [if_pos h]
    rw [he] at hb
    simp only [List.mem_cons, List.mem_singleton, List.not_mem_nil] at hb
    rcases hb with h1 | h1 | h1
    · omega
    · rcases h with h2 | h2 | h2 | h2 | h2 <;> rw [h2] at h1 <;> simp at h1
    · exact h1
  · have he : encodeByte b = [(b + 42) % 256] := by
      simp only [encodeByte]
      rw [if_neg h]
    rw [he] at hb
    simp only [List.mem_singleton] at hb
    tauto

theorem not13_contentLine (data : List Nat) (l : List Nat)
    (hl : l ∈ splitIntoLines (encodeData data)) : 13 ∉ l := by
  intro hmem
  have hf : (13 : Nat) ∈ (splitIntoLines (encodeData data)).flatten :=
    List.mem_flatten.mpr ⟨l, hl, hmem⟩
  rw [splitIntoLines, chunkList_flatten lineLength (by decide)] at hf
  exact not13_encodeData data hf

/-! ### Frame facts for generated header and trailer lines -/

theorem ybeginPrefix_buildHeader (name : List Nat) (pt tt size : Nat) :
    ybeginPrefix (buildHeader name pt tt size) = true := by
  unfold buildHeader
  by_cases h : 1 < tt
  · rw [if_pos h]
    rfl
  · rw [if_neg h]
    rfl

theorem yendPrefix_buildHeader (name : List Nat) (pt tt size : Nat) :
    yendPrefix (buildHeader name pt tt size) = false := by
  unfold buildHeader
  by_cases h : 1 < tt
  · rw [if_pos h]
    rfl
  · rw [if_neg h]
    rfl

theorem ybeginPrefix_buildTrailer (size crc : Nat) :
    ybeginPrefix (buildTrailer size crc) = false := rfl

theorem yendPrefix_buildTrailer (size crc : Nat) :
    yendPrefix (buildTrailer size crc) = true := rfl

/-- The frame scan walks past benign lines and stops at the first
trailer-prefixed line. -/
theorem scanFrame_content (content : List (List Nat))
    (hc : ∀ l ∈ content, ybeginPrefix l = false ∧ yendPrefix l = false)
    (T : List Nat) (hT1 : ybeginPrefix T = false) (hT2 : yendPrefix T = true)
    (rest : List (List Nat)) (i s e : Nat) :
    scanFrame (content ++ T :: rest) i s e = (s, i + content.length) := by
  induction content generalizing i with
  | nil =>
    show scanFrame (T :: rest) i s e = (s, i)
    rw [scanFrame]
    simp [hT1, hT2]
  | cons l ls ih =>
    have hl := hc l (by simp)
    rw [List.cons_append, scanFrame]
    simp only [hl.1, hl.2, if_false, Bool.false_eq_true]
    rw [ih (fun a ha => hc a (by simp [ha])) (i + 1)]
    simp only [List.length_cons]
    refine congrArg _ ?_
    omega

/-- The CR LF split of a complete encoding: header line, content
lines, trailer line and a final empty piece. -/
theorem splitCRLF_encode (data name : List Nat) (pt tt : Nat) (hname : 13 ∉ name) :
    splitCRLF (Encode data name pt tt) =
      buildHeader name pt tt data.length ::
        (splitIntoLines (encodeData data) ++ [buildTrailer data.length (crc32 data), []]) := by
  have hcrlf : ∀ z : List Nat, crlf ++ z = 13 :: 10 :: z := fun z => rfl
  rw [Encode, List.append_assoc, List.append_assoc, List.append_assoc, hcrlf]
  rw [splitCRLF_append _ _ (not13_buildHeader name pt tt data.length hname)]
  rw [splitCRLF_flatMap _ _ (not13_contentLine data)]
  rw [show buildTrailer data.length (crc32 data) ++ crlf
      = buildTrailer data.length (crc32 data) ++ 13 :: 10 :: [] from rfl]
  rw [splitCRLF_append _ _ (not13_buildTrailer data.length (crc32 data))]
  rfl

/-- Content lines of an encoding carry neither frame keyword. -/
theorem contentLines_no_frame (data : List Nat) :
    ∀ l ∈ splitIntoLines (encodeData data),
      ybeginPrefix l = false ∧ yendPrefix l = false := by
  intro l hl
  have hg : goodLine l = true :=
    goodLine_chunkList lineLength (encodeData data) (escapeOk_encodeData data) l hl
  exact ⟨ybeginPrefix_eq_false l hg, yendPrefix_eq_false l hg⟩

/-- Complete frame analysis of an encoding: the decode slice consists
exactly of the encoded content lines. -/
theorem decodeSlice_encode (data name : List Nat) (pt tt : Nat) (hname : 13 ∉ name) :
    decodeSlice (Encode data name pt tt) = splitIntoLines (encodeData data) := by
  have hsplit := splitCRLF_encode data name pt tt hname
  have hscan : scanFrame (splitCRLF (Encode data name pt tt)) 0 0
      (splitCRLF (Encode data name pt tt)).length =
      (1, 1 + (splitIntoLines (encodeData data)).length) := by
    rw [hsplit]
    rw [scanFrame]
    simp only [ybeginPrefix_buildHeader, yendPrefix_buildHeader, if_true, if_false,
      Bool.false_eq_true]
    rw [scanFrame_content _ (contentLines_no_frame data) _ (ybeginPrefix_buildTrailer _ _)
      (yendPrefix_buildTrailer _ _)]
  rw [decodeSlice]
  rw [hscan, hsplit]
  show ((splitIntoLines (encodeData data) ++
      [buildTrailer data.length (crc32 data), []]).take (1 + (splitIntoLines (encodeData data)).length - 1)) = _
  rw [show 1 + (splitIntoLines (encodeData data)).length - 1
      = (splitIntoLines (encodeData data)).length by omega]
  exact List.take_left _ _

/-! ### Extraction of the trailer crc32 field -/

theorem crcBitStep_lt (c : Nat) (hc : c < 4294967296) : crcBitStep c < 4294967296 := by
  rw [crcBitStep]
  by_cases h : c % 2 = 1
  · rw [if_pos h]
    have h1 : c / 2 < 2 ^ 32 := by omega
    have h2 : crcPoly < 2 ^ 32 := by rw [crcPoly]; omega
    have := Nat.xor_lt_two_pow h1 h2
    omega
  · rw [if_neg h]
    omega

theorem crcByteStep_lt (c b : Nat) (hc : c < 4294967296) : crcByteStep c b < 4294967296 := by
  rw [crcByteStep]
  have h0 : c ^^^ b % 256 < 4294967296 := by
    have h1 : c < 2 ^ 32 := hc
    have h2 : b % 256 < 2 ^ 32 := by omega
    have := Nat.xor_lt_two_pow h1 h2
    omega
  exact crcBitStep_lt _ (crcBitStep_lt _ (crcBitStep_lt _ (crcBitStep_lt _ (crcBitStep_lt _
    (crcBitStep_lt _ (crcBitStep_lt _ (crcBitStep_lt _ h0)))))))

theorem crc32_lt (data : List Nat) : crc32 data < 4294967296 := by
  rw [crc32]
  have hfold : ∀ (l : List Nat) (acc : Nat),
      acc < 4294967296 → l.foldl crcByteStep acc < 4294967296 := by
    intro l
    induction l with
    | nil => intro acc h; exact h
    | cons b rest ih => intro acc h; exact ih _ (crcByteStep_lt acc b h)
  have h1 := hfold data 0xFFFFFFFF (by omega)
  have h2 : (0xFFFFFFFF : Nat) < 2 ^ 32 := by omega
  have := Nat.xor_lt_two_pow (show data.foldl crcByteStep 0xFFFFFFFF < 2 ^ 32 from h1) h2
  omega

theorem findCrc_skip (p r : List Nat) (hp : 99 ∉ p) : findCrc (p ++ r) = findCrc r := by
  induction p with
  | nil => rfl
  | cons c p2 ih =>
    have hc : c ≠ 99 := fun h => hp (h ▸ List.mem_cons_self c p2)
    rw [List.cons_append, findCrc]
    have hpre : (strBytes "crc32=").isPrefixOf (c :: (p2 ++ r)) = false := by
      rw [show strBytes "crc32=" = 99 :: strBytes "rc32=" from rfl, isPrefixOf_cons_cons]
      have : (99 == c) = false := by
        simp only [beq_eq_false_iff_ne, ne_eq]
        omega
      rw [this, Bool.false_and]
    rw [hpre]
    show findCrc (p2 ++ r) = findCrc r
    exact ih (fun h => hp (List.mem_cons_of_mem c h))

theorem findCrc_at (r : List Nat) : findCrc (strBytes "crc32=" ++ r) = some (r.take 8) := by
  rw [show strBytes "crc32=" ++ r = 99 :: (strBytes "rc32=" ++ r) from rfl, findCrc]
  have hpre : (strBytes "crc32=").isPrefixOf (99 :: (strBytes "rc32=" ++ r)) = true := by
    rw [List.isPrefixOf_iff_prefix]
    exact ⟨r, rfl⟩
  rw [hpre]
  simp only [if_true]
  rw [show (99 :: (strBytes "rc32=" ++ r)).drop 6 = (strBytes "crc32=" ++ r).drop 6 from rfl]
  rw [show (6 : Nat) = (strBytes "crc32=").length from rfl, List.drop_left]

theorem crcHexBytes_length (c : Nat) : (crcHexBytes c).length = 8 := by
  simp [crcHexBytes, byteHex]

theorem hexListVal_crcHexBytes (c : Nat) (hc : c < 4294967296) :
    hexListVal (crcHexBytes c) = c := by
  have h16 : ∀ d, d < 16 → hexVal (asciiUpperByte (hexDigitByte d)) = d := by decide
  show hexListVal
    [asciiUpperByte (hexDigitByte (c / 16777216 % 256 / 16 % 16)),
     asciiUpperByte (hexDigitByte (c / 16777216 % 256 % 16)),
     asciiUpperByte (hexDigitByte (c / 65536 % 256 / 16 % 16)),
     asciiUpperByte (hexDigitByte (c / 65536 % 256 % 16)),
     asciiUpperByte (hexDigitByte (c / 256 % 256 / 16 % 16)),
     asciiUpperByte (hexDigitByte (c / 256 % 256 % 16)),
     asciiUpperByte (hexDigitByte (c % 256 / 16 % 16)),
     asciiUpperByte (hexDigitByte (c % 256 % 16))] = c
  simp only [hexListVal, List.foldl]
  rw [h16 _ (by omega), h16 _ (by omega), h16 _ (by omega), h16 _ (by omega),
    h16 _ (by omega), h16 _ (by omega), h16 _ (by omega), h16 _ (by omega)]
  omega

theorem trailerLineOf_encode (data name : List Nat) (pt tt : Nat) (hname : 13 ∉ name) :
    trailerLineOf (Encode data name pt tt) =
      some (buildTrailer data.length (crc32 data)) := by
  rw [trailerLineOf, splitCRLF_encode data name pt tt hname]
  rw [List.find?_cons_of_neg _ (by simp [yendPrefix_buildHeader])]
  rw [List.find?_append]
  have hnone : (splitIntoLines (encodeData data)).find? (fun l => yendPrefix l) = none := by
    rw [List.find?_eq_none]
    intro l hl
    simp [(contentLines_no_frame data l hl).2]
  rw [hnone]
  rw [List.find?_cons_of_pos _ (by simp [yendPrefix_buildTrailer])]
  rfl

theorem trailerCrcOf_encode (data name : List Nat) (pt tt : Nat) (hname : 13 ∉ name) :
    trailerCrcOf (Encode data name pt tt) = some (crc32 data) := by
  rw [trailerCrcOf, trailerLineOf_encode data name pt tt hname]
  show (findCrc (buildTrailer data.length (crc32 data))).map hexListVal = _
  rw [buildTrailer]
  rw [show strBytes " crc32=" = [32] ++ strBytes "crc32=" from rfl]
  rw [show strBytes "=yend size=" ++ digitsBytes data.length ++ ([32] ++ strBytes "crc32=") ++
        crcHexBytes (crc32 data)
      = (strBytes "=yend size=" ++ digitsBytes data.length ++ [32]) ++
        (strBytes "crc32=" ++ crcHexBytes (crc32 data)) by
    simp [List.append_assoc]]
  rw [findCrc_skip]
  · rw [findCrc_at]
    rw [List.take_of_length_le (by rw [crcHexBytes_length])]
    rw [show Option.map hexListVal (some (crcHexBytes (crc32 data)))
        = some (hexListVal (crcHexBytes (crc32 data))) from rfl]
    rw [hexListVal_crcHexBytes _ (crc32_lt data)]
  · intro hmem
    simp only [List.mem_append] at hmem
    have hd := digitsBytes_digits data.length 99
    have hs : (99 : Nat) ∉ strBytes "=yend size=" := by decide
    have h32 : (99 : Nat) ∉ [32] := by decide
    rcases hmem with (h1 | h1) | h1
    · exact hs h1
    · have := hd h1
      omega
    · exact h32 h1

/-- Auxiliary: the line loop succeeds when every line decodes. -/
theorem decodeLines_ok (lines : List (List Nat))
    (h : ∀ l ∈ lines, ∃ d, decodeLine l = .ok d) : ∃ ds, decodeLines lines = .ok ds := by
  induction lines with
  | nil => exact ⟨[], rfl⟩
  | cons l ls ih =>
    obtain ⟨d, hd⟩ := h l (by simp)
    obtain ⟨ds, hds⟩ := ih (fun a ha => h a (by simp [ha]))
    refine ⟨d ++ ds, ?_⟩
    rw [decodeLines_cons, hd, hds]

/-! ### Supporting computations for the boundary counterexample -/

theorem encodeData_append (a b : List Nat) :
    encodeData (a ++ b) = encodeData a ++ encodeData b := by
  simp [encodeData, List.flatMap_append]

theorem encodeData_replicate_zero (n : Nat) :
    encodeData (List.replicate n 0) = List.replicate n 42 := by
  induction n with
  | zero => rfl
  | succ n ih =>
    rw [List.replicate_succ, List.replicate_succ, encodeData, List.flatMap_cons]
    show encodeByte 0 ++ encodeData (List.replicate n 0) = _
    rw [ih]
    rfl

theorem decodeLine_replicate42_esc (n : Nat) :
    decodeLine (List.replicate n 42 ++ [61]) = .error "incomplete escape sequence" := by
  induction n with
  | zero => rw [List.replicate_zero, List.nil_append, decodeLine_esc_nil]
  | succ n ih =>
    rw [List.replicate_succ, List.cons_append, decodeLine_plain 42 (by omega), ih]
    rfl

/-- The content lines of the 128-byte boundary input: the escape byte
lands at the end of the first line; its partner opens the second. -/
theorem splitIntoLines_boundary :
    splitIntoLines (encodeData (List.replicate 127 0 ++ [214])) =
      [List.replicate 127 42 ++ [61], [64]] := by
  have henc : encodeData (List.replicate 127 0 ++ [214]) =
      List.replicate 127 42 ++ [61, 64] := by
    rw [encodeData_append, encodeData_replicate_zero]
    rfl
  rw [henc, splitIntoLines]
  have hne : List.replicate 127 (42 : Nat) ++ [61, 64] ≠ [] := by simp
  rw [chunkList_eq_cons lineLength (by decide) _ hne]
  have hlen : (List.replicate 127 (42 : Nat)).length = 127 := by simp
  have htake : (List.replicate 127 (42 : Nat) ++ [61, 64]).take lineLength =
      List.replicate 127 42 ++ [61] := by
    rw [show lineLength = (List.replicate 127 (42 : Nat)).length + 1 by rw [hlen]; decide]
    rw [List.take_append]
    rfl
  have hdrop : (List.replicate 127 (42 : Nat) ++ [61, 64]).drop lineLength = [64] := by
    rw [show lineLength = (List.replicate 127 (42 : Nat)).length + 1 by rw [hlen]; decide]
    rw [List.drop_append]
    rfl
  rw [htake, hdrop]
  rfl

end Yenc

/-! ## Claim C1 and C10 -/

/-- C1 (as frozen, refuted): decoding the yEnc encoding of a byte
buffer does not always return the buffer.  At the 128-byte input
consisting of 127 zero bytes followed by the byte 214, the escaped
byte 214 is encoded as the pair 0x3D 0x40; the line splitter cuts the
encoding after exactly 128 encoded bytes, so the escape byte 0x3D is
the last byte of the first content line and `Decode` fails with the
incomplete escape sequence error instead of returning the buffer. -/
theorem c1_counterexample :
    Yenc.Decode (Yenc.Encode (List.replicate 127 0 ++ [214]) (strBytes "f.txt") 1 1) =
        .error "incomplete escape sequence" ∧
    Yenc.Decode (Yenc.Encode (List.replicate 127 0 ++ [214]) (strBytes "f.txt") 1 1) ≠
        .ok (List.replicate 127 0 ++ [214]) := by
  have hd : Yenc.Decode (Yenc.Encode (List.replicate 127 0 ++ [214]) (strBytes "f.txt") 1 1) =
      .error "incomplete escape sequence" := by
    rw [Yenc.Decode, Yenc.decodeSlice_encode _ _ 1 1 (by decide),
      Yenc.splitIntoLines_boundary, Yenc.decodeLines_cons,
      Yenc.decodeLine_replicate42_esc]
  exact ⟨hd, by rw [hd]; simp⟩

/-- C1 (amended): for every byte buffer and every file name free of
carriage returns, provided no content line of the encoding ends in a
lone escape byte (equivalently, no escape pair is split across the
128-byte line boundary), decoding the yEnc encoding with part 1 and
total 1 returns exactly the buffer, and the crc32 field written in the
=yend trailer equals the IEEE CRC32 of the buffer.  The crc32 equation
holds without the line-boundary hypothesis. -/
theorem c1_roundtrip_and_trailer_crc (data name : List Nat)
    (hdata : ∀ v ∈ data, v < 256) (hname : 13 ∉ name)
    (hlines : ∀ l ∈ Yenc.splitIntoLines (Yenc.encodeData data),
      Yenc.endsWithLoneEscape l = false) :
    Yenc.Decode (Yenc.Encode data name 1 1) = .ok data ∧
    Yenc.trailerCrcOf (Yenc.Encode data name 1 1) = some (crc32 data) := by
  constructor
  · rw [Yenc.Decode, Yenc.decodeSlice_encode data name 1 1 hname]
    have hall : ∀ l ∈ Yenc.splitIntoLines (Yenc.encodeData data),
        ∃ d, Yenc.decodeLine l = .ok d :=
      fun l hl => Yenc.decodeLine_ok_of_not_lone l (hlines l hl)
    rw [Yenc.decodeLines_eq_flatten _ hall, Yenc.splitIntoLines,
      chunkList_flatten _ (by decide)]
    exact Yenc.decodeLine_encodeData data hdata
  · exact Yenc.trailerCrcOf_encode data name 1 1 hname

/-- Witness for C1 at a concrete input. -/
theorem c1_roundtrip_and_trailer_crc_witness :
    Yenc.Decode (Yenc.Encode (strBytes "yEnc codec") (strBytes "f.txt") 1 1) =
        .ok (strBytes "yEnc codec") ∧
    Yenc.trailerCrcOf (Yenc.Encode (strBytes "yEnc codec") (strBytes "f.txt") 1 1) =
        some (crc32 (strBytes "yEnc codec")) :=
  c1_roundtrip_and_trailer_crc (strBytes "yEnc codec") (strBytes "f.txt")
    (by decide) (by decide) (by decide)

/-- C10 (confirmed): the decoder never inspects the crc32 field of the
=yend trailer.  Whenever no content line of the input ends in a lone
escape byte, `Decode` succeeds, whatever the trailer says; and the
only error `Decode` ever returns is the incomplete escape sequence
error. -/
theorem c10_decoder_ignores_crc (encoded : List Nat) :
    ((∀ l ∈ Yenc.decodeSlice encoded, Yenc.endsWithLoneEscape l = false) →
      ∃ d, Yenc.Decode encoded = .ok d) ∧
    (∀ e, Yenc.Decode encoded = .error e → e = "incomplete escape sequence") := by
  constructor
  · intro h
    rw [Yenc.Decode]
    exact Yenc.decodeLines_ok _
      (fun l hl => Yenc.decodeLine_ok_of_not_lone l (h l hl))
  · intro e he
    exact Yenc.decodeLines_error_eq _ e he

/-- Witness for C10: an article whose trailer carries a crc32 field
that disagrees with its content still decodes successfully. -/
theorem c10_decoder_ignores_crc_witness :
    (∀ l ∈ Yenc.decodeSlice
        (strBytes "=ybegin line=128 size=3 name=f\r\nrst\r\n=yend size=3 crc32=00000000\r\n"),
      Yenc.endsWithLoneEscape l = false) ∧
    ∃ d, Yenc.Decode
        (strBytes "=ybegin line=128 size=3 name=f\r\nrst\r\n=yend size=3 crc32=00000000\r\n") =
      .ok d :=
  ⟨by decide,
   (c10_decoder_ignores_crc
     (strBytes "=ybegin line=128 size=3 name=f\r\nrst\r\n=yend size=3 crc32=00000000\r\n")).1
     (by decide)⟩

namespace Splitter

/-- With `maxPartSize = 0` the read loop makes no progress on a
nonempty file: no amount of fuel lets `SplitFile` return. -/
theorem splitFile_zero_mps_none (hash : List Nat → List Char) (fileName : List Char)
    (fuel : Nat) (data : List Nat) (hne : data ≠ []) :
    SplitFile hash fileName fuel data 0 = none := by
  suffices h : ∀ f pn acc, splitLoop hash fileName f data 0 pn acc = none from h fuel 1 []
  intro f
  induction f with
  | zero => intro pn acc; rfl
  | succ f ih =>
    intro pn acc
    rw [splitLoop]
    have hlen : ¬ data.length = 0 := by
      cases data with
      | nil => exact absurd rfl hne
      | cons x xs => simp
    rw [if_neg hlen]
    have hps : goPartSize data 0 = 0 := by
      rw [goPartSize, if_neg (by omega)]
    rw [hps]
    rw [if_neg (by omega), if_neg (by omega)]
    exact ih pn acc

/-- With a negative `maxPartSize` the first iteration panics in
`make([]byte, partSize)` on a nonempty file. -/
theorem splitFile_neg_mps_crash (hash : List Nat → List Char) (fileName : List Char)
    (fuel : Nat) (data : List Nat) (mps : Int) (hne : data ≠ []) (hmps : mps < 0) :
    SplitFile hash fileName (fuel + 1) data mps = some .crash := by
  rw [SplitFile, splitLoop]
  have hlen : ¬ data.length = 0 := by
    cases data with
    | nil => exact absurd rfl hne
    | cons x xs => simp
  rw [if_neg hlen]
  have hps : goPartSize data mps = mps := by
    rw [goPartSize, if_neg (by omega)]
  rw [hps, if_pos hmps]

/-- Value of the clamped part size under a positive `maxPartSize`. -/
theorem goPartSize_toNat (remaining : List Nat) (mps : Int) (hmps : 0 < mps) :
    (goPartSize remaining mps).toNat = min mps.toNat remaining.length := by
  rw [goPartSize]
  by_cases h : (remaining.length : Int) < mps
  · rw [if_pos h]; omega
  · rw [if_neg h]; omega

/-- The loop with positive part size computes exactly the numbered
chunks of the remaining data. -/
theorem splitLoop_pos (hash : List Nat → List Char) (fileName : List Char) (mps : Int)
    (hmps : 0 < mps) (remaining : List Nat) (fuel : Nat) (pn : Nat)
    (acc : List Models.FilePart) (hfuel : remaining.length < fuel) :
    splitLoop hash fileName fuel remaining mps pn acc =
      some (.ok (acc.reverse ++
        numberParts hash fileName pn (chunkList mps.toNat remaining))) := by
  match fuel with
  | 0 => omega
  | fuel + 1 =>
    rw [splitLoop]
    by_cases hlen : remaining.length = 0
    · rw [if_pos hlen]
      have hnil : remaining = [] := List.eq_nil_of_length_eq_zero hlen
      subst hnil
      rw [chunkList_nil]
      simp [numberParts]
    · rw [if_neg hlen]
      have hmt : 0 < mps.toNat := by omega
      have hnn : ¬ (goPartSize remaining mps < 0) := by
        rw [goPartSize]
        by_cases h : (remaining.length : Int) < mps
        · rw [if_pos h]; omega
        · rw [if_neg h]; omega
      rw [if_neg hnn, goPartSize_toNat remaining mps hmps]
      have hnpos : 0 < min mps.toNat remaining.length := by omega
      rw [if_pos hnpos]
      have htake : remaining.take (min mps.toNat remaining.length)
          = remaining.take mps.toNat := by
        by_cases h : mps.toNat ≤ remaining.length
        · rw [Nat.min_eq_left h]
        · rw [Nat.min_eq_right (by omega), List.take_length,
            List.take_of_length_le (by omega)]
      have hdrop : remaining.drop (min mps.toNat remaining.length)
          = remaining.drop mps.toNat := by
        by_cases h : mps.toNat ≤ remaining.length
        · rw [Nat.min_eq_left h]
        · rw [Nat.min_eq_right (by omega), List.drop_length,
            List.drop_eq_nil_of_le (by omega)]
      have hsize : min mps.toNat remaining.length
          = (remaining.take mps.toNat).length := by
        rw [List.length_take]
      rw [htake, hdrop, hsize]
      have hih := splitLoop_pos hash fileName mps hmps (remaining.drop mps.toNat) fuel (pn + 1)
        ({ PartNumber := pn, FileName := fileName,
           Size := (remaining.take mps.toNat).length,
           Data := remaining.take mps.toNat,
           Checksum := hash (remaining.take mps.toNat) } :: acc)
        (by
          rw [List.length_drop]
          omega)
      rw [hih]
      rw [chunkList_eq_cons mps.toNat hmt remaining
        (fun h => hlen (by rw [h]; rfl))]
      rw [numberParts]
      rw [List.reverse_cons, List.append_assoc, List.singleton_append]
termination_by fuel

/-- Joint properties of the numbered chunks of a nonempty byte list:
sizes sum to the total, all but the last piece have full size, the
last piece is nonempty and at most full size, the data concatenates
back to the input, and part numbers are consecutive from `pn`. -/
theorem numberParts_chunk_props (hash : List Nat → List Char) (fileName : List Char)
    (m : Nat) (hm : 0 < m) (data : List Nat) (hne : data ≠ []) (pn : Nat) :
    ((numberParts hash fileName pn (chunkList m data)).map (fun p => p.Size)).sum
        = data.length ∧
    (∀ p ∈ (numberParts hash fileName pn (chunkList m data)).dropLast, p.Size = m) ∧
    (∃ lastP, (numberParts hash fileName pn (chunkList m data)).getLast? = some lastP ∧
      0 < lastP.Size ∧ lastP.Size ≤ m) ∧
    ((numberParts hash fileName pn (chunkList m data)).map (fun p => p.Data)).flatten
        = data ∧
    (numberParts hash fileName pn (chunkList m data)).map (fun p => p.PartNumber)
        = List.range' pn (numberParts hash fileName pn (chunkList m data)).length := by
  have hlenpos : 0 < data.length := by
    cases data with
    | nil => exact absurd rfl hne
    | cons x xs => simp
  rw [chunkList_eq_cons m hm data hne, numberParts]
  by_cases hd : data.drop m = []
  · have hle : data.length ≤ m := by
      have := List.length_drop m data
      rw [hd] at this
      simp at this
      omega
    rw [hd, chunkList_nil]
    show ([(data.take m).length].sum = data.length) ∧ _
    have htl : (data.take m).length = data.length := by
      rw [List.length_take]
      omega
    refine ⟨by simp [htl], by simp [numberParts], ?_, ?_, ?_⟩
    · refine ⟨⟨pn, fileName, (data.take m).length, data.take m, hash (data.take m)⟩, rfl, ?_, ?_⟩
      · show 0 < (data.take m).length
        omega
      · show (data.take m).length ≤ m
        omega
    · show data.take m ++ [].flatten = data
      rw [List.flatten_nil, List.append_nil]
      exact List.take_of_length_le hle
    · show [pn] = List.range' pn 1
      rfl
  · have hlt : m < data.length := by
      have := List.length_drop m data
      by_contra hcon
      push_neg at hcon
      apply hd
      exact List.drop_eq_nil_of_le hcon
    have ih := numberParts_chunk_props hash fileName m hm (data.drop m) hd (pn + 1)
    obtain ⟨ihsum, ihdrop, ⟨lastP, ihlast, ihlast1, ihlast2⟩, ihflat, ihrange⟩ := ih
    have hrestne : numberParts hash fileName (pn + 1) (chunkList m (data.drop m)) ≠ [] := by
      rw [chunkList_eq_cons m hm _ hd, numberParts]
      simp
    have htm : (data.take m).length = m := by
      rw [List.length_take]
      omega
    refine ⟨?_, ?_, ?_, ?_, ?_⟩
    · show (data.take m).length +
          ((numberParts hash fileName (pn + 1) (chunkList m (data.drop m))).map
            (fun p => p.Size)).sum = data.length
      rw [htm, ihsum, List.length_drop]
      omega
    · intro p hp
      rw [List.dropLast_cons_of_ne_nil hrestne] at hp
      rcases List.mem_cons.mp hp with h1 | h1
      · rw [h1]
        exact htm
      · exact ihdrop p h1
    · refine ⟨lastP, ?_, ihlast1, ihlast2⟩
      obtain ⟨r0, rtail, hr⟩ := List.exists_cons_of_ne_nil hrestne
      rw [hr, List.getLast?_cons_cons, ← hr]
      exact ihlast
    · show data.take m ++
          ((numberParts hash fileName (pn + 1) (chunkList m (data.drop m))).map
            (fun p => p.Data)).flatten = data
      rw [ihflat]
      exact List.take_append_drop m data
    · show pn :: (numberParts hash fileName (pn + 1) (chunkList m (data.drop m))).map
          (fun p => p.PartNumber) = _
      rw [ihrange]
      rw [List.length_cons, List.range'_succ]
  termination_by data.length
  decreasing_by
    rw [List.length_drop]
    omega

end Splitter

/-! ## Claims C3 and C9 -/

/-- C3 (amended): with a positive `max_part_size`, splitting a
nonempty file yields parts whose sizes sum to the file size, all parts
except the last have exactly `max_part_size` bytes, the last part is
nonempty and no larger than `max_part_size`, the concatenation of the
part data in ordinal order is the input, and the part ordinals are the
consecutive integers from 1. -/
theorem c3_splitter_partition (hash : List Nat → List Char) (fileName : List Char)
    (data : List Nat) (mps : Int) (hne : data ≠ []) (hmps : 0 < mps) :
    ∃ parts,
      Splitter.SplitFile hash fileName (data.length + 1) data mps
        = some (.ok parts) ∧
      (parts.map (fun p => p.Size)).sum = data.length ∧
      (∀ p ∈ parts.dropLast, p.Size = mps.toNat) ∧
      (∃ lastP, parts.getLast? = some lastP ∧ 0 < lastP.Size ∧ lastP.Size ≤ mps.toNat) ∧
      (parts.map (fun p => p.Data)).flatten = data ∧
      parts.map (fun p => p.PartNumber) = List.range' 1 parts.length := by
  have hmt : 0 < mps.toNat := by omega
  have hrun := Splitter.splitLoop_pos hash fileName mps hmps data (data.length + 1) 1 []
    (by omega)
  refine ⟨Splitter.numberParts hash fileName 1 (chunkList mps.toNat data), ?_, ?_⟩
  · rw [Splitter.SplitFile, hrun]
    rfl
  · exact Splitter.numberParts_chunk_props hash fileName mps.toNat hmt data hne 1

/-- Witness for C3 at a concrete input. -/
theorem c3_splitter_partition_witness :
    ∃ parts,
      Splitter.SplitFile (fun _ => []) [] 6 [10, 20, 30, 40, 50] 2
        = some (.ok parts) ∧
      (parts.map (fun p => p.Size)).sum = 5 ∧
      (∀ p ∈ parts.dropLast, p.Size = 2) ∧
      (∃ lastP, parts.getLast? = some lastP ∧ 0 < lastP.Size ∧ lastP.Size ≤ 2) ∧
      (parts.map (fun p => p.Data)).flatten = [10, 20, 30, 40, 50] ∧
      parts.map (fun p => p.PartNumber) = List.range' 1 parts.length :=
  c3_splitter_partition (fun _ => []) [] [10, 20, 30, 40, 50] 2 (by decide) (by decide)

/-- C3 (as frozen, refuted): with `max_part_size = 0` the splitter
read loop never terminates on a nonempty file (no parts are ever
produced, for any fuel), and with a negative `max_part_size` it
panics; so the partition properties do not hold for every
`(file, max_part_size)` pair. -/
theorem c3_counterexample :
    Splitter.SplitFile (fun _ => []) [] 1000000000 [42] 0 = none ∧
    Splitter.SplitFile (fun _ => []) [] 5 [42] (-1) = some .crash :=
  ⟨Splitter.splitFile_zero_mps_none (fun _ => []) [] 1000000000 [42] (by decide),
   Splitter.splitFile_neg_mps_crash (fun _ => []) [] 4 [42] (-1) (by decide) (by decide)⟩

/-- C9 (the claimed behaviour is absent from the code):
`NewSplitter` performs no validation of `max_part_size` and
`SplitFile` has no `InvalidSize` error path.  Called with
`max_part_size = 0` on a nonempty file, the read loop repeatedly
reads zero bytes and never returns at all; with a negative value the
buffer allocation panics.  In neither case is an error value
returned. -/
theorem c9_no_invalid_size_error (hash : List Nat → List Char) (fileName : List Char)
    (fuel : Nat) (data : List Nat) (hne : data ≠ []) :
    Splitter.SplitFile hash fileName fuel data 0 = none ∧
    Splitter.SplitFile hash fileName (fuel + 1) data (-1) = some .crash :=
  ⟨Splitter.splitFile_zero_mps_none hash fileName fuel data hne,
   Splitter.splitFile_neg_mps_crash hash fileName fuel data (-1) hne (by omega)⟩

/-- Witness for C9 at a concrete input. -/
theorem c9_no_invalid_size_error_witness :
    Splitter.SplitFile (fun _ => []) [] 7 [1, 2, 3] 0 = none ∧
    Splitter.SplitFile (fun _ => []) [] 8 [1, 2, 3] (-1) = some .crash :=
  c9_no_invalid_size_error (fun _ => []) [] 7 [1, 2, 3] (by decide)

namespace Par2

theorem takePadSlice_length (ss : Nat) (l : List Nat) : (takePadSlice ss l).length = ss := by
  rw [takePadSlice, List.length_append, List.length_take, List.length_replicate]
  omega

theorem flatMap_fixed_length (ss : Nat) (L : List Nat)
    (f : Nat → List Nat) (h : ∀ x ∈ L, (f x).length = ss) :
    (L.flatMap f).length = L.length * ss := by
  induction L with
  | nil => simp
  | cons a L ih =>
    rw [List.flatMap_cons, List.length_append, h a (by simp),
      ih (fun x hx => h x (by simp [hx])), List.length_cons]
    ring

/-- Chunking a concatenation of full-size blocks recovers the blocks. -/
theorem chunkList_flatMap_fixed (ss : Nat) (hss : 0 < ss) (L : List Nat)
    (f : Nat → List Nat) (h : ∀ x ∈ L, (f x).length = ss) :
    chunkList ss (L.flatMap f) = L.map f := by
  induction L with
  | nil => rw [List.flatMap_nil, chunkList_nil, List.map_nil]
  | cons a L ih =>
    rw [List.flatMap_cons, List.map_cons]
    have hfa : (f a).length = ss := h a (by simp)
    have hne : f a ++ L.flatMap f ≠ [] := by
      intro hcon
      have := congrArg List.length hcon
      rw [List.length_append, hfa] at this
      simp at this
      omega
    rw [chunkList_eq_cons ss hss _ hne]
    rw [show ss = (f a).length from hfa.symm, List.take_left, List.drop_left]
    rw [hfa, ih (fun x hx => h x (by simp [hx]))]

end Par2

/-! ## Claim C4 -/

/-- C4 (amended): provided the shard counts are compatible with the
Reed-Solomon encoder (at least one data shard, and data plus parity at
most 256) and the slice size is positive, the PAR2 generator produces
exactly `max 1 (k * r / 100)` parity shards, each exactly `slice_size`
bytes long, and the emitted index file begins with the eight magic
bytes PAR2 NUL P K T. -/
theorem c4_par2_shape (rsParity : Nat → List (List Nat) → Nat → List Nat)
    (hashFn : List Nat → List Nat) (parts : List (List Nat))
    (namedParts : List (List Nat × List Nat)) (sliceSize redundancy : Nat)
    (hss : 0 < sliceSize)
    (hk : 0 < Par2.numSlicesOf (Par2.totalSizeOf parts) sliceSize)
    (hlim : Par2.numSlicesOf (Par2.totalSizeOf parts) sliceSize +
      Par2.parityShardsOf (Par2.numSlicesOf (Par2.totalSizeOf parts) sliceSize) redundancy
        ≤ 256) :
    ∃ rec,
      Par2.generateRecoveryDataReedSolomonFromParts rsParity parts sliceSize redundancy
        = .ok rec ∧
      rec.length =
        Par2.parityShardsOf (Par2.numSlicesOf (Par2.totalSizeOf parts) sliceSize) redundancy
          * sliceSize ∧
      (chunkList sliceSize rec).length =
        Par2.parityShardsOf (Par2.numSlicesOf (Par2.totalSizeOf parts) sliceSize)
          redundancy ∧
      (∀ shard ∈ chunkList sliceSize rec, shard.length = sliceSize) ∧
      (Par2.writePAR2IndexFileForParts hashFn namedParts sliceSize).take 8 =
        strBytes "PAR2\x00PKT" := by
  have hok : Par2.generateRecoveryDataReedSolomonFromParts rsParity parts sliceSize redundancy
      = .ok ((List.range (Par2.parityShardsOf
            (Par2.numSlicesOf (Par2.totalSizeOf parts) sliceSize) redundancy)).flatMap
          (fun i => Par2.takePadSlice sliceSize
            (rsParity sliceSize
              ((parts.flatMap (Par2.chunkPad sliceSize)).take
                (Par2.numSlicesOf (Par2.totalSizeOf parts) sliceSize)) i))) := by
    rw [Par2.generateRecoveryDataReedSolomonFromParts, if_neg (by omega), if_neg (by omega)]
  refine ⟨_, hok, ?_, ?_, ?_, ?_⟩
  · rw [Par2.flatMap_fixed_length sliceSize _ _
      (fun x _ => Par2.takePadSlice_length sliceSize _), List.length_range]
  · rw [Par2.chunkList_flatMap_fixed sliceSize hss _ _
      (fun x _ => Par2.takePadSlice_length sliceSize _), List.length_map,
      List.length_range]
  · intro shard hshard
    rw [Par2.chunkList_flatMap_fixed sliceSize hss _ _
      (fun x _ => Par2.takePadSlice_length sliceSize _)] at hshard
    obtain ⟨i, _, rfl⟩ := List.mem_map.mp hshard
    exact Par2.takePadSlice_length sliceSize _
  · rw [Par2.writePAR2IndexFileForParts,
      show (8 : Nat) = (strBytes "PAR2\x00PKT").length from rfl, List.take_left]

/-- Witness for C4 at a concrete input. -/
theorem c4_par2_shape_witness :
    ∃ rec,
      Par2.generateRecoveryDataReedSolomonFromParts (fun _ _ _ => []) [[1, 2, 3]] 2 10
        = .ok rec ∧
      rec.length = Par2.parityShardsOf (Par2.numSlicesOf (Par2.totalSizeOf [[1, 2, 3]]) 2) 10 * 2 ∧
      (chunkList 2 rec).length =
        Par2.parityShardsOf (Par2.numSlicesOf (Par2.totalSizeOf [[1, 2, 3]]) 2) 10 ∧
      (∀ shard ∈ chunkList 2 rec, shard.length = 2) ∧
      (Par2.writePAR2IndexFileForParts (fun _ => []) [(strBytes "a", [1, 2, 3])] 2).take 8 =
        strBytes "PAR2\x00PKT" :=
  c4_par2_shape (fun _ _ _ => []) (fun _ => []) [[1, 2, 3]] [(strBytes "a", [1, 2, 3])] 2 10
    (by decide) (by decide) (by decide)

/-- C4 (as frozen, refuted): for a part list of 256 data shards and
redundancy 100 the parity count formula gives 256 further shards, the
encoder constructor rejects the 512 total shards, and the generator
returns an error instead of producing any parity shards. -/
theorem c4_counterexample :
    Par2.generateRecoveryDataReedSolomonFromParts (fun _ _ _ => [])
        [List.replicate 256 1] 1 100
      = .error "cannot create Encoder with more than 256 data and parity shards" := by
  rfl

/-! ### Decimal formatting facts -/

theorem digitChar_isDigit (d : Nat) (h : d < 10) : (digitChar d).isDigit = true := by
  interval_cases d <;> decide

theorem digitsVal_append_single (l : List Char) (c : Char) :
    digitsVal (l ++ [c]) = 10 * digitsVal l + (c.toNat - 48) := by
  simp [digitsVal, List.foldl_append]

theorem digitsVal_natDigitsAux (f : Nat) : ∀ (n : Nat), n < 10 ^ f →
    digitsVal (natDigitsAux f n) = n := by
  induction f with
  | zero =>
    intro n h
    interval_cases n
    rfl
  | succ f ih =>
    intro n h
    by_cases h10 : n < 10
    · simp only [natDigitsAux, if_pos h10]
      show digitsVal [digitChar n] = n
      simp [digitsVal, Yenc.digitChar_toNat n h10]
    · simp only [natDigitsAux, if_neg h10]
      have hdiv : n / 10 < 10 ^ f := by
        rw [Nat.div_lt_iff_lt_mul (by omega : (0:Nat) < 10)]
        rw [pow_succ] at h
        exact h
      rw [digitsVal_append_single, ih (n / 10) hdiv,
          Yenc.digitChar_toNat (n % 10) (Nat.mod_lt n (by omega))]
      omega

theorem natDigits_val (n : Nat) : digitsVal (natDigits n) = n := by
  have h1 : n < 10 ^ n := Nat.lt_pow_self (by omega) n
  have h2 : (10:Nat) ^ n ≤ 10 ^ (n + 1) := Nat.pow_le_pow_right (by omega) (Nat.le_succ n)
  exact digitsVal_natDigitsAux (n + 1) n (lt_of_lt_of_le h1 h2)

theorem natDigitsAux_isDigit (f : Nat) : ∀ (n : Nat), ∀ c ∈ natDigitsAux f n, c.isDigit = true := by
  induction f with
  | zero =>
    intro n c hc
    simp [natDigitsAux] at hc
  | succ f ih =>
    intro n c hc
    by_cases h10 : n < 10
    · simp only [natDigitsAux, if_pos h10, List.mem_singleton] at hc
      rw [hc]
      exact digitChar_isDigit n h10
    · simp only [natDigitsAux, if_neg h10, List.mem_append, List.mem_singleton] at hc
      rcases hc with hc | hc
      · exact ih _ c hc
      · rw [hc]
        exact digitChar_isDigit _ (Nat.mod_lt n (by omega))

theorem natDigits_digits (n : Nat) : ∀ c ∈ natDigits n, c.isDigit = true :=
  natDigitsAux_isDigit (n + 1) n

theorem natDigits_ne_nil (n : Nat) : natDigits n ≠ [] := by
  show natDigitsAux (n + 1) n ≠ []
  by_cases h10 : n < 10
  · simp [natDigitsAux, if_pos h10]
  · simp only [natDigitsAux, if_neg h10]
    intro habs
    have h2 := (List.append_eq_nil.mp habs).2
    simp at h2

theorem isDigit_ne_space (c : Char) (h : c.isDigit = true) : c ≠ Char.ofNat 32 := by
  intro he
  rw [he] at h
  exact absurd h (by decide)

theorem isDigit_ne_quote (c : Char) (h : c.isDigit = true) : c ≠ Char.ofNat 34 := by
  intro he
  rw [he] at h
  exact absurd h (by decide)

namespace Nzb

theorem numMarker_eq : numMarker = Char.ofNat 34 :: strChars " number=\"" := by decide

theorem charIsPrefixOf_cons_cons (a b : Char) (as bs : List Char) :
    (a :: as).isPrefixOf (b :: bs) = (a == b && as.isPrefixOf bs) := rfl

theorem dropWhile_len_le (p : Char → Bool) : ∀ (l : List Char), (l.dropWhile p).length ≤ l.length
  | [] => Nat.le_refl 0
  | c :: cs => by
    rw [List.dropWhile_cons]
    by_cases h : p c = true
    · rw [if_pos h]
      exact Nat.le_trans (dropWhile_len_le p cs) (Nat.le_succ cs.length)
    · rw [if_neg h]

theorem takeWhile_append_run (p : Char → Bool) (y : Char) (hy : p y = false) :
    ∀ (xs : List Char), (∀ x ∈ xs, p x = true) → ∀ (t : List Char),
      (xs ++ y :: t).takeWhile p = xs ∧ (xs ++ y :: t).dropWhile p = y :: t
  | [], _, t => by
    constructor
    · rw [List.nil_append, List.takeWhile_cons_of_neg (by simp [hy])]
    · rw [List.nil_append, List.dropWhile_cons_of_neg (by simp [hy])]
  | x :: xs, hxs, t => by
    have hx : p x = true := hxs x (List.mem_cons_self x xs)
    have ih := takeWhile_append_run p y hy xs (fun z hz => hxs z (List.mem_cons_of_mem x hz)) t
    constructor
    · rw [List.cons_append, List.takeWhile_cons_of_pos (by simp [hx]), ih.1]
    · rw [List.cons_append, List.dropWhile_cons_of_pos (by simp [hx])]
      exact ih.2

theorem segNumbersAux_fuel (f : Nat) (s : List Char) (hl : s.length ≤ f) :
    segNumbersAux f s = segNumbersAux s.length s := by
  match f, s with
  | 0, [] => rfl
  | 0, c :: cs => simp at hl
  | f + 1, [] => rfl
  | f + 1, c :: cs =>
    have hl2 : cs.length + 1 ≤ f + 1 := by simpa using hl
    have hcs : cs.length < f + 1 := by omega
    have h10 : numMarker.length = 10 := by decide
    have h1 := dropWhile_len_le Char.isDigit ((c :: cs).drop numMarker.length)
    have h2 : ((c :: cs).drop numMarker.length).length = cs.length + 1 - numMarker.length := by
      rw [List.length_drop, List.length_cons]
    rw [List.length_cons]
    show (if numMarker.isPrefixOf (c :: cs) then
        digitsVal (((c :: cs).drop numMarker.length).takeWhile Char.isDigit) ::
          segNumbersAux f (((c :: cs).drop numMarker.length).dropWhile Char.isDigit)
      else segNumbersAux f cs) =
      (if numMarker.isPrefixOf (c :: cs) then
        digitsVal (((c :: cs).drop numMarker.length).takeWhile Char.isDigit) ::
          segNumbersAux cs.length (((c :: cs).drop numMarker.length).dropWhile Char.isDigit)
      else segNumbersAux cs.length cs)
    by_cases hp : numMarker.isPrefixOf (c :: cs) = true
    · rw [if_pos hp, if_pos hp,
          segNumbersAux_fuel f (((c :: cs).drop numMarker.length).dropWhile Char.isDigit)
            (by omega),
          segNumbersAux_fuel cs.length (((c :: cs).drop numMarker.length).dropWhile Char.isDigit)
            (by omega)]
    · rw [if_neg hp, if_neg hp, segNumbersAux_fuel f cs (by omega),
          segNumbersAux_fuel cs.length cs (Nat.le_refl cs.length)]
termination_by f

theorem segNumbers_nil : segNumbers [] = [] := rfl

theorem segNumbers_skip (c : Char) (cs : List Char)
    (h : numMarker.isPrefixOf (c :: cs) = false) :
    segNumbers (c :: cs) = segNumbers cs := by
  show segNumbersAux (c :: cs).length (c :: cs) = segNumbersAux cs.length cs
  rw [List.length_cons]
  simp only [segNumbersAux]
  rw [if_neg (by simp [h])]

theorem segNumbers_hit (rest : List Char) :
    segNumbers (numMarker ++ rest) =
      digitsVal (rest.takeWhile Char.isDigit) :: segNumbers (rest.dropWhile Char.isDigit) := by
  have hpre : numMarker.isPrefixOf (numMarker ++ rest) = true := by
    rw [List.isPrefixOf_iff_prefix]
    exact List.prefix_append numMarker rest
  have hlen : (numMarker ++ rest).length = (rest.length + 9) + 1 := by
    rw [List.length_append, show numMarker.length = 10 from by decide]
    omega
  show segNumbersAux (numMarker ++ rest).length (numMarker ++ rest) = _
  rw [hlen, numMarker_eq, List.cons_append]
  simp only [segNumbersAux]
  rw [if_pos (by rw [← List.cons_append, ← numMarker_eq]; exact hpre)]
  rw [← List.cons_append, ← numMarker_eq,
      show (numMarker ++ rest).drop numMarker.length = rest from List.drop_left numMarker rest,
      segNumbersAux_fuel (rest.length + 9) (rest.dropWhile Char.isDigit)
        (Nat.le_trans (dropWhile_len_le Char.isDigit rest) (by omega))]
  rfl

theorem segNumbers_hit_exposed (rest : List Char) :
    segNumbers (Char.ofNat 34 :: (strChars " number=\"" ++ rest)) =
      digitsVal (rest.takeWhile Char.isDigit) :: segNumbers (rest.dropWhile Char.isDigit) := by
  rw [← List.cons_append, ← numMarker_eq]
  exact segNumbers_hit rest

theorem segNumbers_append_no_quote : ∀ (x : List Char), Char.ofNat 34 ∉ x → ∀ (y : List Char),
    segNumbers (x ++ y) = segNumbers y
  | [], _, y => by rw [List.nil_append]
  | c :: cs, hx, y => by
    have hc : (Char.ofNat 34 == c) = false := by
      rw [beq_eq_false_iff_ne]
      intro he
      apply hx
      rw [he]
      exact List.mem_cons_self c cs
    have hpre : numMarker.isPrefixOf (c :: (cs ++ y)) = false := by
      rw [numMarker_eq, charIsPrefixOf_cons_cons, hc, Bool.false_and]
    rw [List.cons_append, segNumbers_skip c (cs ++ y) hpre,
        segNumbers_append_no_quote cs (fun hm => hx (List.mem_cons_of_mem c hm)) y]

theorem segNumbers_cons_quote (d : Char) (t : List Char) (hd : d ≠ Char.ofNat 32) :
    segNumbers (Char.ofNat 34 :: d :: t) = segNumbers (d :: t) := by
  apply segNumbers_skip
  rw [numMarker_eq, charIsPrefixOf_cons_cons,
      show strChars " number=\"" = Char.ofNat 32 :: strChars "number=\"" from by decide,
      charIsPrefixOf_cons_cons,
      show (Char.ofNat 32 == d) = false from beq_eq_false_iff_ne.mpr (fun he => hd he.symm),
      Bool.false_and, Bool.and_false]

theorem segNumbers_tail_block (idc : List Char) (hid : Char.ofNat 34 ∉ idc) (z : List Char) :
    segNumbers (Char.ofNat 34 :: (Char.ofNat 62 :: (idc ++ (strChars "</segment>\n" ++ z)))) =
      segNumbers z := by
  rw [segNumbers_cons_quote (Char.ofNat 62) _ (by decide)]
  rw [show Char.ofNat 62 :: (idc ++ (strChars "</segment>\n" ++ z)) =
        (Char.ofNat 62 :: (idc ++ strChars "</segment>\n")) ++ z from by
      simp [List.cons_append, List.append_assoc]]
  apply segNumbers_append_no_quote
  intro hm
  rcases List.mem_cons.mp hm with h | h
  · exact absurd h (by decide)
  · rcases List.mem_append.mp h with h2 | h2
    · exact hid h2
    · exact absurd h2 (by decide)

theorem segNumbers_run_no_quote (d : Char) (db : List Char) (hq : Char.ofNat 34 ∉ d :: db)
    (y : List Char) : segNumbers (d :: (db ++ y)) = segNumbers y := by
  rw [← List.cons_append]
  exact segNumbers_append_no_quote (d :: db) hq y

/-- Scanning the segments section recovers the part numbers in input order,
provided no segment identifier contains a double quote. -/
theorem segNumbers_segmentsSection : ∀ (segs : List Models.PostSegment),
    (∀ s ∈ segs, Char.ofNat 34 ∉ generateSegmentID s.MessageID) →
    segNumbers (segmentsSection segs) = segs.map Models.PostSegment.PartNumber
  | [], _ => rfl
  | s :: rest, hq => by
    have hid : Char.ofNat 34 ∉ generateSegmentID s.MessageID := hq s (List.mem_cons_self s rest)
    have ih := segNumbers_segmentsSection rest (fun t ht => hq t (List.mem_cons_of_mem s ht))
    obtain ⟨d, db, hdb⟩ := List.exists_cons_of_ne_nil (natDigits_ne_nil s.BytesPosted)
    have hdd : ∀ c ∈ natDigits s.BytesPosted, c.isDigit = true := natDigits_digits _
    have hd_digit : d.isDigit = true := hdd d (by rw [hdb]; exact List.mem_cons_self d db)
    have hdb_nq : Char.ofNat 34 ∉ d :: db := by
      intro hmem
      rw [← hdb] at hmem
      exact absurd (hdd _ hmem) (by decide)
    have hnd : ∀ c ∈ natDigits s.PartNumber, c.isDigit = true := natDigits_digits _
    have hA : strChars "      <segment bytes=\"" =
        strChars "      <segment bytes=" ++ [Char.ofNat 34] := by decide
    have hM : strChars "\" number=\"" = Char.ofNat 34 :: strChars " number=\"" := by decide
    have hC : strChars "\">" = Char.ofNat 34 :: (Char.ofNat 62 :: []) := by decide
    rw [show segmentsSection (s :: rest) = segmentLine s ++ segmentsSection rest from by
      simp [segmentsSection]]
    simp only [segmentLine, segmentLinePrefix]
    rw [hdb]
    simp only [hA, hM, hC, List.append_assoc, List.cons_append, List.nil_append]
    rw [segNumbers_append_no_quote (strChars "      <segment bytes=") (by decide),
        segNumbers_cons_quote d _ (isDigit_ne_space d hd_digit),
        segNumbers_run_no_quote d db hdb_nq,
        segNumbers_hit_exposed,
        (takeWhile_append_run Char.isDigit (Char.ofNat 34) (by decide)
          (natDigits s.PartNumber) hnd _).1,
        (takeWhile_append_run Char.isDigit (Char.ofNat 34) (by decide)
          (natDigits s.PartNumber) hnd _).2,
        natDigits_val,
        segNumbers_tail_block (generateSegmentID s.MessageID) hid _,
        ih]
    rfl

end Nzb

/-- **C2, counterexample**: handing the generator the segment records in the
order 2, 1 yields a document whose number attributes read 2, 1 — not sorted
ascending.  The generator performs no sorting. -/
theorem c2_counterexample :
    Nzb.segNumbers c2ExampleDoc = [2, 1] ∧
      ¬ List.Sorted (· ≤ ·) (Nzb.segNumbers c2ExampleDoc) := by
  constructor
  · decide
  · decide

/-- **C2** (corrected): the generator emits the `<segment>` elements of a file
in the input order of the segment records — scanning the segments section for
number attributes returns exactly the part numbers in input order — and that
section is embedded verbatim in the emitted document. -/
theorem c2_segments_in_input_order (poster fileName group : List Char) (date : Nat)
    (segs : List Models.PostSegment) (hne : segs ≠ [])
    (hq : ∀ s ∈ segs, Char.ofNat 34 ∉ Nzb.generateSegmentID s.MessageID) :
    Nzb.segNumbers (Nzb.segmentsSection segs) = segs.map Models.PostSegment.PartNumber ∧
    Nzb.segmentsSection segs <:+: Nzb.buildNZBContent poster fileName segs group date [] := by
  constructor
  · exact Nzb.segNumbers_segmentsSection segs hq
  · have hne2 : segs.isEmpty = false := by
      cases segs with
      | nil => exact absurd rfl hne
      | cons a l => rfl
    refine ⟨Nzb.nzbHeader fileName ++
        (strChars "  <file poster=\"" ++ Nzb.sanitizeXML poster ++ strChars "\" date=\"" ++
          natDigits date ++ strChars "\" subject=\"" ++ Nzb.sanitizeXML (Nzb.headSubject segs) ++
          strChars "\">\n    <groups>\n" ++ (Nzb.splitGroups group).flatMap Nzb.groupLine ++
          strChars "    </groups>\n    <segments>\n"),
      strChars "    </segments>\n  </file>\n" ++ strChars "</nzb>", ?_⟩
    simp [Nzb.buildNZBContent, Nzb.fileBlocks, Nzb.fileEntry, hne2, List.append_assoc]

/-- Witness for C2 at a concrete two-segment input. -/
theorem c2_segments_in_input_order_witness :
    Nzb.segNumbers (Nzb.segmentsSection c2WitnessSegs) =
      c2WitnessSegs.map Models.PostSegment.PartNumber ∧
    Nzb.segmentsSection c2WitnessSegs <:+:
      Nzb.buildNZBContent (strChars "p") (strChars "f") c2WitnessSegs (strChars "g") 5 [] :=
  c2_segments_in_input_order (strChars "p") (strChars "f") (strChars "g") 5 c2WitnessSegs
    (by decide) (by decide)

namespace Nzb

/-- A character cannot survive its own replacement layer when the
replacement text does not contain it. -/
theorem not_mem_replaceAllChar_self (old : Char) (rep : List Char) (s : List Char)
    (hrep : old ∉ rep) : old ∉ replaceAllChar old rep s := by
  intro hmem
  rw [replaceAllChar, List.mem_flatMap] at hmem
  obtain ⟨x, _, hx⟩ := hmem
  by_cases hxo : x = old
  · rw [if_pos hxo] at hx
    exact hrep hx
  · rw [if_neg hxo, List.mem_singleton] at hx
    exact hxo hx.symm

/-- A replacement layer cannot introduce a character that is in neither
the input nor the replacement text. -/
theorem not_mem_replaceAllChar_preserve (c old : Char) (rep s : List Char)
    (hs : c ∉ s) (hrep : c ∉ rep) : c ∉ replaceAllChar old rep s := by
  intro hmem
  rw [replaceAllChar, List.mem_flatMap] at hmem
  obtain ⟨x, hxs, hx⟩ := hmem
  by_cases hxo : x = old
  · rw [if_pos hxo] at hx
    exact hrep hx
  · rw [if_neg hxo, List.mem_singleton] at hx
    exact hs (hx ▸ hxs)

theorem sanitizeXML_no_lt (s : List Char) : Char.ofNat 60 ∉ sanitizeXML s :=
  not_mem_replaceAllChar_preserve _ _ _ _
    (not_mem_replaceAllChar_preserve _ _ _ _
      (not_mem_replaceAllChar_preserve _ _ _ _
        (not_mem_replaceAllChar_self _ _ _ (by decide))
        (by decide))
      (by decide))
    (by decide)

theorem sanitizeXML_no_gt (s : List Char) : Char.ofNat 62 ∉ sanitizeXML s :=
  not_mem_replaceAllChar_preserve _ _ _ _
    (not_mem_replaceAllChar_preserve _ _ _ _
      (not_mem_replaceAllChar_self _ _ _ (by decide))
      (by decide))
    (by decide)

theorem sanitizeXML_no_quot (s : List Char) : Char.ofNat 34 ∉ sanitizeXML s :=
  not_mem_replaceAllChar_preserve _ _ _ _
    (not_mem_replaceAllChar_self _ _ _ (by decide))
    (by decide)

theorem sanitizeXML_no_apos (s : List Char) : Char.ofNat 39 ∉ sanitizeXML s :=
  not_mem_replaceAllChar_self _ _ _ (by decide)

end Nzb

/-- **C8, counterexample**: a Message-ID containing an ampersand (for example
minted against host `a&b.example`) reaches the document unescaped: the emitted
document contains a raw ampersand that opens no XML entity, because
`buildNZBContent` splices the bracket-trimmed Message-ID into the segment
element without calling `sanitizeXML` on it. -/
theorem c8_counterexample :
    Nzb.ampersandsEscaped c8ExampleDoc = false ∧
      strChars ">17.5@a&b.example</segment>" <:+: c8ExampleDoc := by
  constructor
  · decide
  · decide

/-- **C8** (corrected): the fields passed through `sanitizeXML` (poster,
subject, group names, title) can no longer contain any of the XML delimiter
characters `<`, `>`, double quote, apostrophe after escaping, but the
Message-ID text of a segment element is emitted verbatim (bracket-trimmed,
never escaped). -/
theorem c8_sanitized_fields_and_raw_segment_id (s : List Char)
    (seg : Models.PostSegment) :
    (Char.ofNat 60 ∉ Nzb.sanitizeXML s ∧ Char.ofNat 62 ∉ Nzb.sanitizeXML s ∧
      Char.ofNat 34 ∉ Nzb.sanitizeXML s ∧ Char.ofNat 39 ∉ Nzb.sanitizeXML s) ∧
    Nzb.segmentLine seg =
      Nzb.segmentLinePrefix seg ++ Nzb.generateSegmentID seg.MessageID ++
        strChars "</segment>\n" :=
  ⟨⟨Nzb.sanitizeXML_no_lt s, Nzb.sanitizeXML_no_gt s, Nzb.sanitizeXML_no_quot s,
    Nzb.sanitizeXML_no_apos s⟩, rfl⟩

namespace Nntp

theorem lookup_cons_self (k v : List Char) (t : List (List Char × List Char)) :
    List.lookup k ((k, v) :: t) = some v := by
  simp [List.lookup]

theorem lookup_cons_ne (k a v : List Char) (t : List (List Char × List Char))
    (h : (k == a) = false) : List.lookup k ((a, v) :: t) = List.lookup k t := by
  simp [List.lookup, h]

theorem upsert_keys (k v : List Char) (m : List (List Char × List Char)) :
    (upsert k v m).map Prod.fst =
      if m.any (fun p => p.1 == k) then m.map Prod.fst else m.map Prod.fst ++ [k] := by
  rw [upsert]
  by_cases h : m.any (fun p => p.1 == k) = true
  · rw [if_pos h, if_pos h, List.map_map]
    apply List.map_congr_left
    intro p hp
    simp only [Function.comp_apply]
    by_cases hk : (p.1 == k) = true
    · rw [if_pos hk]
      exact (beq_iff_eq.mp hk).symm
    · rw [if_neg hk]
  · rw [if_neg h, if_neg h, List.map_append]
    rfl

theorem upsert_keys_nodup (k v : List Char) (m : List (List Char × List Char))
    (h : (m.map Prod.fst).Nodup) : ((upsert k v m).map Prod.fst).Nodup := by
  rw [upsert_keys]
  by_cases ha : m.any (fun p => p.1 == k) = true
  · rw [if_pos ha]
    exact h
  · rw [if_neg ha]
    have hnk : k ∉ m.map Prod.fst := by
      intro hmem
      rw [List.mem_map] at hmem
      obtain ⟨p, hp, hpk⟩ := hmem
      apply ha
      rw [List.any_eq_true]
      exact ⟨p, hp, by rw [hpk]; exact beq_self_eq_true k⟩
    rw [List.nodup_append]
    refine ⟨h, List.nodup_singleton k, ?_⟩
    intro a ha2 hb
    rw [List.mem_singleton] at hb
    exact hnk (hb ▸ ha2)

theorem defaultHeaders_keys_nodup (fromV subject group messageID dateV : List Char) :
    ((defaultHeaders fromV subject group messageID dateV).map Prod.fst).Nodup := by
  show ([strChars "From", strChars "Subject", strChars "Newsgroups", strChars "Message-ID",
    strChars "Date", strChars "Content-Type"] : List (List Char)).Nodup
  decide

theorem foldl_upsert_keys_nodup :
    ∀ (ext m : List (List Char × List Char)), (m.map Prod.fst).Nodup →
      ((ext.foldl (fun m2 p => upsert p.1 p.2 m2) m).map Prod.fst).Nodup
  | [], _, h => h
  | q :: ext, m, h => foldl_upsert_keys_nodup ext _ (upsert_keys_nodup q.1 q.2 m h)

theorem map_keys_lookup : ∀ (m : List (List Char × List Char)),
    (m.map Prod.fst).Nodup →
    (m.map Prod.fst).map (fun k => (k, ((m.lookup k).getD []))) = m
  | [], _ => rfl
  | (a, v) :: t, h => by
    simp only [List.map_cons] at h ⊢
    obtain ⟨hna, ht⟩ := List.nodup_cons.mp h
    congr 1
    · show (a, ((List.lookup a ((a, v) :: t)).getD [])) = (a, v)
      rw [lookup_cons_self]
      rfl
    · have hmapeq : (t.map Prod.fst).map
            (fun k => (k, ((List.lookup k ((a, v) :: t)).getD []))) =
          (t.map Prod.fst).map (fun k => (k, ((List.lookup k t).getD []))) := by
        apply List.map_congr_left
        intro k hk
        have hne : (k == a) = false := by
          rw [beq_eq_false_iff_ne]
          intro he
          exact hna (he ▸ hk)
        rw [lookup_cons_ne k a v t hne]
      rw [hmapeq]
      exact map_keys_lookup t ht

theorem emitHeaders_perm (m : List (List Char × List Char))
    (h : (m.map Prod.fst).Nodup) (ord : List (List Char))
    (hord : ord.Perm (m.map Prod.fst)) : (emitHeaders ord m).Perm m := by
  have h3 : ((m.map Prod.fst).map (fun k => (k, ((m.lookup k).getD [])))).Perm m := by
    rw [map_keys_lookup m h]
  exact (hord.map _).trans h3

theorem upsert_mem_preserve (k v k2 v2 : List Char)
    (m : List (List Char × List Char)) (hmem : (k, v) ∈ m) (hne : k ≠ k2) :
    (k, v) ∈ upsert k2 v2 m := by
  rw [upsert]
  by_cases ha : m.any (fun p => p.1 == k2) = true
  · rw [if_pos ha]
    refine List.mem_map.mpr ⟨(k, v), hmem, ?_⟩
    rw [if_neg (by simp [hne])]
  · rw [if_neg ha]
    exact List.mem_append_left _ hmem

theorem upsert_mem_self (k v : List Char) (m : List (List Char × List Char)) :
    (k, v) ∈ upsert k v m := by
  rw [upsert]
  by_cases ha : m.any (fun p => p.1 == k) = true
  · rw [if_pos ha]
    obtain ⟨p, hp, hpk⟩ := List.any_eq_true.mp ha
    refine List.mem_map.mpr ⟨p, hp, ?_⟩
    rw [if_pos hpk]
  · rw [if_neg ha]
    exact List.mem_append_right _ (List.mem_singleton.mpr rfl)

theorem foldl_upsert_preserve (k v : List Char) :
    ∀ (ext m : List (List Char × List Char)),
      (k, v) ∈ m → k ∉ ext.map Prod.fst →
      (k, v) ∈ ext.foldl (fun m2 p => upsert p.1 p.2 m2) m
  | [], _, hm, _ => hm
  | q :: ext, m, hm, hk => by
    have hk1 : k ≠ q.1 := fun he => hk (by
      rw [List.map_cons, he]
      exact List.mem_cons_self q.1 (ext.map Prod.fst))
    have hk2 : k ∉ ext.map Prod.fst := fun hmem => hk (by
      rw [List.map_cons]
      exact List.mem_cons_of_mem q.1 hmem)
    exact foldl_upsert_preserve k v ext (upsert q.1 q.2 m)
      (upsert_mem_preserve k v q.1 q.2 m hm hk1) hk2

theorem foldl_upsert_mem (k v : List Char) :
    ∀ (ext m : List (List Char × List Char)),
      (k, v) ∈ ext → (ext.map Prod.fst).Nodup →
      (k, v) ∈ ext.foldl (fun m2 p => upsert p.1 p.2 m2) m
  | [], _, hm, _ => absurd hm (List.not_mem_nil _)
  | q :: ext, m, hm, hnd => by
    simp only [List.map_cons] at hnd
    obtain ⟨hq1, hnd2⟩ := List.nodup_cons.mp hnd
    rcases List.mem_cons.mp hm with he | he
    · have h1 : (q.1, q.2) ∈ upsert q.1 q.2 m := upsert_mem_self q.1 q.2 m
      have h3 : q ∈ ext.foldl (fun m2 p => upsert p.1 p.2 m2) (upsert q.1 q.2 m) :=
        foldl_upsert_preserve q.1 q.2 ext (upsert q.1 q.2 m) h1 hq1
      rw [he]
      exact h3
    · exact foldl_upsert_mem k v ext (upsert q.1 q.2 m) he hnd2

theorem getClient_len (maxConns : Nat) (s : PoolState)
    (h : s.clients.length ≤ maxConns) :
    (match getClient maxConns s with
      | some (_, s2) => s2
      | none => s).clients.length ≤ maxConns := by
  unfold getClient
  cases hf : findConnected s.clients with
  | some i => exact h
  | none =>
    by_cases hlt : s.clients.length < maxConns
    · rw [if_pos hlt]
      show (s.clients ++ [true]).length ≤ maxConns
      simp only [List.length_append, List.length_cons, List.length_nil]
      omega
    · rw [if_neg hlt]
      by_cases hpos : 0 < s.clients.length
      · rw [if_pos hpos]
        exact h
      · rw [if_neg hpos]
        exact h

theorem runPool_len (maxConns : Nat) : ∀ (ops : List PoolOp) (s : PoolState),
    s.clients.length ≤ maxConns → (runPool maxConns ops s).clients.length ≤ maxConns
  | [], _, h => h
  | PoolOp.get :: ops, s, h => runPool_len maxConns ops _ (getClient_len maxConns s h)
  | PoolOp.closeAll :: ops, s, _ =>
    runPool_len maxConns ops (closeAll s) (Nat.zero_le maxConns)

end Nntp

/-- **C5, counterexample**: the headers are emitted by ranging over a Go map,
whose iteration order is unspecified.  The reversed key order is a legitimate
iteration order of the map — it enumerates exactly the map's keys — yet the
emission it produces differs from the fixed order the claim asserts, so no
fixed emission order is guaranteed. -/
theorem c5_counterexample :
    c5RevOrd.Perm (c5Map.map Prod.fst) ∧
    Nntp.emitHeaders c5RevOrd c5Map ≠
      Nntp.claimedEmission (strChars "F") (strChars "S") (strChars "G") (strChars "M")
        (strChars "D") c5Extras := by
  constructor
  · decide
  · decide

/-- **C5** (corrected): for every iteration order of the headersToSend map
(any enumeration of its keys), the emitted header lines are exactly the map's
entries, as a permutation — no particular order is guaranteed; every extra
header entry is in the map (extras take precedence), and a default entry
survives exactly when its key is not overridden. -/
theorem c5_headers_content (fromV subject group messageID dateV : List Char)
    (extras : List (List Char × List Char)) (hnd : (extras.map Prod.fst).Nodup)
    (ord : List (List Char))
    (hord : ord.Perm
      ((Nntp.headersToSend fromV subject group messageID dateV extras).map Prod.fst)) :
    (Nntp.emitHeaders ord
        (Nntp.headersToSend fromV subject group messageID dateV extras)).Perm
      (Nntp.headersToSend fromV subject group messageID dateV extras) ∧
    (∀ k v, (k, v) ∈ extras →
      (k, v) ∈ Nntp.headersToSend fromV subject group messageID dateV extras) ∧
    (∀ k v, (k, v) ∈ Nntp.defaultHeaders fromV subject group messageID dateV →
      k ∉ extras.map Prod.fst →
      (k, v) ∈ Nntp.headersToSend fromV subject group messageID dateV extras) := by
  have hmnd := Nntp.foldl_upsert_keys_nodup extras
    (Nntp.defaultHeaders fromV subject group messageID dateV)
    (Nntp.defaultHeaders_keys_nodup fromV subject group messageID dateV)
  refine ⟨Nntp.emitHeaders_perm _ hmnd ord hord, ?_, ?_⟩
  · intro k v hkv
    exact Nntp.foldl_upsert_mem k v extras _ hkv hnd
  · intro k v hkv hk
    exact Nntp.foldl_upsert_preserve k v extras _ hkv hk

/-- Witness for C5 at a concrete input. -/
theorem c5_headers_content_witness :
    (Nntp.emitHeaders c5Ord c5Map).Perm c5Map ∧
    (∀ k v, (k, v) ∈ c5Extras → (k, v) ∈ c5Map) ∧
    (∀ k v, (k, v) ∈ Nntp.defaultHeaders (strChars "F") (strChars "S") (strChars "G")
        (strChars "M") (strChars "D") →
      k ∉ c5Extras.map Prod.fst → (k, v) ∈ c5Map) :=
  c5_headers_content (strChars "F") (strChars "S") (strChars "G") (strChars "M")
    (strChars "D") c5Extras (by decide) c5Ord (by decide)

/-- **C6, counterexample**: `GetClient` records no lease.  With capacity 2 and
no release in between, two consecutive acquires both return client 0: the
first creates it, the second finds it connected and hands the same underlying
client to a second holder. -/
theorem c6_counterexample :
    Nntp.getClient 2 Nntp.initPool = some (0, ⟨[true], 0⟩) ∧
    Nntp.getClient 2 ⟨[true], 0⟩ = some (0, ⟨[true], 0⟩) := by
  constructor
  · rfl
  · rfl

/-- **C6** (corrected): the size half of the claim does hold — starting from
the empty pool, no operation sequence ever makes the client list exceed
`maxConns` entries (`GetClient` creates only below the cap, round-robin and
reuse keep the list, `CloseAll` empties it). -/
theorem c6_pool_size_bound (maxConns : Nat) (ops : List Nntp.PoolOp) :
    (Nntp.runPool maxConns ops Nntp.initPool).clients.length ≤ maxConns :=
  Nntp.runPool_len maxConns ops Nntp.initPool (Nat.zero_le maxConns)

/-- **C7** (code bug): the Message-ID is a pure function of the two clock
samples and the configured host — `PostArticle` keeps no counter and draws no
randomness — so two posts that observe the same `UnixNano`/`Unix` values mint
the identical Message-ID: the set of IDs from two such calls has one element,
not two. -/
theorem c7_message_id_collision :
    Nntp.mintMessageID 1700000000123456789 1700000000 (strChars "news.example.com") =
      strChars "<1700000000123456789.1700000000@news.example.com>" ∧
    [Nntp.mintMessageID 1700000000123456789 1700000000 (strChars "news.example.com"),
     Nntp.mintMessageID 1700000000123456789 1700000000 (strChars "news.example.com")].dedup.length
      = 1 := by
  constructor
  · decide
  · decide

end YPost
